import Mathlib

/-!
# Verification of the subagent message grouping engine

This file gives a shallow embedding of the message grouping/aggregation
engine (`src/lib/subagentGrouping.ts`) and of the memoization equality
oracle (`src/components/message/StreamMessageV2.tsx`), and proves or
refutes the specification's claims about them.

Modelling conventions:
* JavaScript objects with dynamic fields become structures with `Option`
  fields; JS truthiness on strings is modelled by `truthyStr` (absent or
  empty strings are falsy).
* JS `Map`/`Set` (insertion-ordered) are modelled as association lists
  with `mapSet`/`mapGet`/`mapHas` (overwriting `mapSet` keeps the original
  position, as JS `Map.set` does) and `List.contains`-based sets.
* The `forEach` loops with mutable accumulators become `List.foldl`
  over an index-carrying enumeration (`enumFrom`), or an explicit
  state-passing recursion (`aggLoop`) for the aggregation pass.
* `subagentMessages` and the payloads of aggregated entries carry the
  original index next to each message (the source keeps the index in the
  loop variable and stores only the message); the index component exists
  purely so that index-level invariants can be stated.
-/

/-- A content item of a message: a JS object with a `type` tag and the
shallow fields the engine inspects (`text`, `id`, `name`, `tool_use_id`,
`input.subagent_type`). Absent fields are `none`. -/
structure ContentItem where
  type : String
  text : Option String := none
  id : Option String := none
  name : Option String := none
  tool_use_id : Option String := none
  input_subagent_type : Option String := none
deriving DecidableEq

/-- Token usage counts, as inspected by the equality oracle. -/
structure Usage where
  input_tokens : Option Nat := none
  output_tokens : Option Nat := none
deriving DecidableEq

/-- The `content` payload of a message: either a bare string or an
ordered sequence of content items. -/
inductive MsgContent where
  | str (s : String)
  | items (l : List ContentItem)
deriving DecidableEq

/-- The nested `message` object (`message.message` in the source), which
holds `content` and possibly `usage`. -/
structure InnerMessage where
  content : Option MsgContent := none
  usage : Option Usage := none
deriving DecidableEq

/-- A stream message (`ClaudeStreamMessage` in the source), with the
fields the grouping engine and the equality oracle inspect. -/
structure ClaudeStreamMessage where
  type : String
  id : Option String := none
  timestamp : Option String := none
  parent_tool_use_id : Option String := none
  isSidechain : Bool := false
  message : Option InnerMessage := none
  usage : Option Usage := none
deriving DecidableEq

instance : Inhabited ClaudeStreamMessage := ⟨{ type := "user" }⟩

/-- JS truthiness of an optional string: `none` and `""` are falsy. -/
def truthyStr : Option String → Bool
  | none => false
  | some s => s != ""

/-- `message.message?.content` in the source. -/
def rawContent (m : ClaudeStreamMessage) : Option MsgContent :=
  match m.message with
  | some inner => inner.content
  | none => none

/-- The content of `m` when it is an item sequence (`Array.isArray`),
`none` otherwise. -/
def contentItems (m : ClaudeStreamMessage) : Option (List ContentItem) :=
  match rawContent m with
  | some (MsgContent.items l) => some l
  | _ => none

/-- ASCII lower-casing of a character (executable model of the
`toLowerCase` used by the source on tool names, which are ASCII). -/
def charLower (c : Char) : Char :=
  if 65 ≤ c.toNat ∧ c.toNat ≤ 90 then Char.ofNat (c.toNat + 32) else c

/-- ASCII `toLowerCase` over the character list of a string. -/
def strLower (s : String) : String := ⟨s.data.map charLower⟩

/-- Whitespace trimming over the character list of a string (model of JS
`String.prototype.trim`). -/
def strTrim (s : String) : String :=
  ⟨((s.data.dropWhile Char.isWhitespace).reverse.dropWhile
      Char.isWhitespace).reverse⟩

/-- `item.type === 'tool_use' && item.name?.toLowerCase() === 'task'`. -/
def isTaskToolUseItem (it : ContentItem) : Bool :=
  it.type == "tool_use" &&
    (match it.name with
     | some n => strLower n == "task"
     | none => false)

/-- `hasTaskToolCall` from the source: an assistant message whose content
is an item sequence containing a `tool_use` item named (case-insensitively)
`task`. -/
def hasTaskToolCall (m : ClaudeStreamMessage) : Bool :=
  if m.type != "assistant" then false
  else
    match contentItems m with
    | none => false
    | some l => l.any isTaskToolUseItem

/-- `extractTaskToolUseIds` from the source: ids of the task `tool_use`
items, in content order, dropping falsy ids (`filter(Boolean)`). -/
def extractTaskToolUseIds (m : ClaudeStreamMessage) : List String :=
  if !hasTaskToolCall m then []
  else
    match contentItems m with
    | none => []
    | some l =>
        (l.filter isTaskToolUseItem).filterMap (fun it =>
          match it.id with
          | some s => if s == "" then none else some s
          | none => none)

/-- Overwriting insert on an insertion-ordered association list, matching
JS `Map.set`: an existing key keeps its position, a new key is appended. -/
def mapSet {α β : Type} [BEq α] (m : List (α × β)) (k : α) (v : β) :
    List (α × β) :=
  if m.any (fun p => p.1 == k) then
    m.map (fun p => if p.1 == k then (k, v) else p)
  else m ++ [(k, v)]

/-- JS `Map.get`, returning the value at the first matching key. -/
def mapGet {α β : Type} [BEq α] (m : List (α × β)) (k : α) : Option β :=
  (m.find? (fun p => p.1 == k)).map Prod.snd

/-- JS `Map.has`. -/
def mapHas {α β : Type} [BEq α] (m : List (α × β)) (k : α) : Bool :=
  m.any (fun p => p.1 == k)

/-- `extractTaskToolDetails` from the source: a map from task tool-use id
to the optional `input.subagent_type` captured for that id. -/
def extractTaskToolDetails (m : ClaudeStreamMessage) :
    List (String × Option String) :=
  if !hasTaskToolCall m then []
  else
    match contentItems m with
    | none => []
    | some l =>
        (l.filter isTaskToolUseItem).foldl (fun acc it =>
          match it.id with
          | some s => if s == "" then acc else mapSet acc s it.input_subagent_type
          | none => acc) []

/-- `isSubagentMessage` from the source. -/
def isSubagentMessage (m : ClaudeStreamMessage) : Bool :=
  truthyStr m.parent_tool_use_id || m.isSidechain

/-- `getParentToolUseId` from the source: `parent_tool_use_id || null`. -/
def getParentToolUseId (m : ClaudeStreamMessage) : Option String :=
  match m.parent_tool_use_id with
  | some s => if s == "" then none else some s
  | none => none

/-- `isTechnicalMessage` from the source: `thinking`-typed messages are
always technical; otherwise the message must be an assistant message whose
content is an item sequence all of whose items are `tool_use`,
`tool_result`, `thinking`, or blank `text`. -/
def isTechnicalMessage (m : ClaudeStreamMessage) : Bool :=
  if m.type == "thinking" then true
  else if m.type != "assistant" then false
  else
    match contentItems m with
    | none => false
    | some l =>
        l.all (fun it =>
          if it.type == "tool_use" then true
          else if it.type == "tool_result" then true
          else if it.type == "thinking" then true
          else if it.type == "text" then
            match it.text with
            | none => true
            | some t => t == "" || (strTrim t).length == 0
          else false)

/-- Index-carrying enumeration of a list, starting at `k`; stands for the
`forEach((x, index) => ...)` loops of the source. -/
def enumFrom {α : Type} : Nat → List α → List (Nat × α)
  | _, [] => []
  | k, a :: as => (k, a) :: enumFrom (k + 1) as

/-- The value stored in `taskToolUseMap`: the message carrying the task
invocation and its index. -/
structure TaskInfo where
  message : ClaudeStreamMessage
  index : Nat
deriving DecidableEq

/-- The state built by the first pass of `groupMessages`. -/
structure ResolverState where
  taskToolUseMap : List (String × TaskInfo)
  indexToTaskIds : List (Nat × List String)
  taskSubagentTypes : List (String × String)
deriving DecidableEq

/-- The per-task-id body of the first pass: record the carrying message
and index for `taskId`, and its `subagent_type` when truthy. -/
def resolveInnerStep (message : ClaudeStreamMessage) (index : Nat)
    (details : List (String × Option String)) (st2 : ResolverState)
    (taskId : String) : ResolverState :=
  let newMap := mapSet st2.taskToolUseMap taskId ⟨message, index⟩
  let st3 : ResolverState := { st2 with taskToolUseMap := newMap }
  match mapGet details taskId with
  | some (some ty) =>
      if ty == "" then st3
      else
        let newTypes := mapSet st3.taskSubagentTypes taskId ty
        { st3 with taskSubagentTypes := newTypes }
  | _ => st3

/-- The per-message body of the first pass. -/
def resolveStep (st : ResolverState) (p : Nat × ClaudeStreamMessage) :
    ResolverState :=
  let index := p.1
  let message := p.2
  let taskIds := extractTaskToolUseIds message
  if taskIds.isEmpty then st
  else
    let details := extractTaskToolDetails message
    let st1 : ResolverState :=
      { st with indexToTaskIds := mapSet st.indexToTaskIds index taskIds }
    taskIds.foldl (resolveInnerStep message index details) st1

/-- First pass of `groupMessages`: record, for every message carrying task
invocations, its task ids, and per task id the carrying message/index and
any truthy `subagent_type`. -/
def resolvePass (msgs : List ClaudeStreamMessage) : ResolverState :=
  (enumFrom 0 msgs).foldl resolveStep ⟨[], [], []⟩

/-- `SubagentGroup` from the source; `subagentMessages` additionally
carries each collected message's original index (the loop variable `i` of
the source). -/
structure SubagentGroup where
  id : String
  taskMessage : ClaudeStreamMessage
  taskToolUseId : String
  subagentMessages : List (Nat × ClaudeStreamMessage)
  startIndex : Nat
  endIndex : Nat
  subagentType : Option String := none
deriving DecidableEq

/-- The collection loop of the second pass: all messages strictly after
`taskIdx` whose `parent_tool_use_id` equals `taskId`, with their indices. -/
def collectSubagent (msgs : List ClaudeStreamMessage) (taskId : String)
    (taskIdx : Nat) : List (Nat × ClaudeStreamMessage) :=
  (enumFrom 0 msgs).filter (fun p =>
    decide (taskIdx < p.1) && (getParentToolUseId p.2 == some taskId))

/-- Second pass of `groupMessages`: for every recorded task invocation,
collect its subagent messages and materialize a `SubagentGroup` when at
least one was found. -/
def buildSubagentGroups (msgs : List ClaudeStreamMessage)
    (st : ResolverState) : List (String × SubagentGroup) :=
  st.taskToolUseMap.foldl (fun acc kv =>
    let taskId := kv.1
    let taskInfo := kv.2
    let subMsgs := collectSubagent msgs taskId taskInfo.index
    let maxIndex := subMsgs.foldl (fun a p => max a p.1) taskInfo.index
    if subMsgs.isEmpty then acc
    else
      mapSet acc taskId
        ⟨taskId, taskInfo.message, taskId, subMsgs, taskInfo.index, maxIndex,
          mapGet st.taskSubagentTypes taskId⟩) []

/-- The `processedIndices` test: a message is skipped when its parent id
belongs to a materialized group. -/
def isProcessed (groups : List (String × SubagentGroup))
    (m : ClaudeStreamMessage) : Bool :=
  match getParentToolUseId m with
  | some p => mapHas groups p
  | none => false

/-- An entry of the intermediate grouping (`intermediateGroups` in the
source): the third pass emits only `normal` and `subagent` entries. -/
inductive IGroup where
  | normal (message : ClaudeStreamMessage) (index : Nat)
  | subagent (group : SubagentGroup)
deriving DecidableEq

/-- The per-task-id body of the third pass: emit the materialized group
for `taskId` unless it was already emitted (`addedTaskGroups`). -/
def interInnerStep (groups : List (String × SubagentGroup))
    (a : List IGroup × List String) (taskId : String) :
    List IGroup × List String :=
  match mapGet groups taskId with
  | some g =>
      if a.2.contains taskId then a
      else (a.1 ++ [IGroup.subagent g], a.2 ++ [taskId])
  | none => a

/-- The per-message body of the third pass. -/
def interStep (st : ResolverState) (groups : List (String × SubagentGroup))
    (acc : List IGroup × List String) (p : Nat × ClaudeStreamMessage) :
    List IGroup × List String :=
  if isProcessed groups p.2 then acc
  else
    match mapGet st.indexToTaskIds p.1 with
    | some taskIds =>
        if taskIds.isEmpty then (acc.1 ++ [IGroup.normal p.2 p.1], acc.2)
        else
          let acc1 := taskIds.foldl (interInnerStep groups) acc
          if taskIds.any (fun tid => mapHas groups tid) then acc1
          else (acc1.1 ++ [IGroup.normal p.2 p.1], acc1.2)
    | none => (acc.1 ++ [IGroup.normal p.2 p.1], acc.2)

/-- Third pass of `groupMessages`: walk the messages in order, skip the
ones hidden inside materialized groups, emit each materialized group once
(at the first unprocessed index carrying its id) and each remaining
message as a `normal` entry. -/
def buildIntermediate (msgs : List ClaudeStreamMessage)
    (st : ResolverState) (groups : List (String × SubagentGroup)) :
    List IGroup :=
  ((enumFrom 0 msgs).foldl (interStep st groups)
    (([] : List IGroup), ([] : List String))).1

/-- A render group (`MessageGroup` in the source); `aggregated` payloads
carry each member's original index next to the message (the source stores
the message and, in `index`, the first member's index). -/
inductive MessageGroup where
  | normal (message : ClaudeStreamMessage) (index : Nat)
  | subagent (group : SubagentGroup)
  | aggregated (messages : List (Nat × ClaudeStreamMessage)) (index : Nat)
deriving DecidableEq

/-- Fourth pass of `groupMessages` (state-passing form of the `forEach`
with the mutable `currentAggregation`): coalesce maximal runs of
consecutive technical `normal` entries into `aggregated` entries, flushing
the open run at `subagent` entries, at non-technical `normal` entries, and
at the end. -/
def aggLoop : List IGroup → Option (List (Nat × ClaudeStreamMessage) × Nat) →
    List MessageGroup
  | [], none => []
  | [], some (ms, i) => [MessageGroup.aggregated ms i]
  | IGroup.subagent g :: rest, none =>
      MessageGroup.subagent g :: aggLoop rest none
  | IGroup.subagent g :: rest, some (ms, i) =>
      MessageGroup.aggregated ms i :: MessageGroup.subagent g ::
        aggLoop rest none
  | IGroup.normal m idx :: rest, none =>
      if isTechnicalMessage m then aggLoop rest (some ([(idx, m)], idx))
      else MessageGroup.normal m idx :: aggLoop rest none
  | IGroup.normal m idx :: rest, some (ms, i) =>
      if isTechnicalMessage m then aggLoop rest (some (ms ++ [(idx, m)], i))
      else
        MessageGroup.aggregated ms i :: MessageGroup.normal m idx ::
          aggLoop rest none

/-- `groupMessages` from the source: resolve task invocations, build the
subagent groups, build the intermediate grouping, aggregate technical
runs. -/
def groupMessages (msgs : List ClaudeStreamMessage) : List MessageGroup :=
  let st := resolvePass msgs
  let groups := buildSubagentGroups msgs st
  aggLoop (buildIntermediate msgs st groups) none

/-- `prev.usage || prev.message?.usage` in the equality oracle. -/
def effectiveUsage (m : ClaudeStreamMessage) : Option Usage :=
  match m.usage with
  | some u => some u
  | none =>
      match m.message with
      | some inner => inner.usage
      | none => none

/-- `u?.input_tokens`-style optional field projection. -/
def usageField (u : Option Usage) (f : Usage → Option Nat) : Option Nat :=
  match u with
  | some w => f w
  | none => none

/-- The per-item comparison of the equality oracle: equal `type`, and the
type-specific shallow fields. -/
def itemEqualShallow (a b : ContentItem) : Bool :=
  if a.type != b.type then false
  else if a.type == "text" && a.text != b.text then false
  else if a.type == "tool_use" && (a.id != b.id || a.name != b.name) then false
  else if a.type == "tool_result" && a.tool_use_id != b.tool_use_id then false
  else true

/-- The usage comparison at the end of `isMessageEqual`. -/
def usageCheck (prev next : ClaudeStreamMessage) : Bool :=
  let pu := effectiveUsage prev
  let nu := effectiveUsage next
  if usageField pu Usage.input_tokens != usageField nu Usage.input_tokens then
    false
  else if usageField pu Usage.output_tokens != usageField nu Usage.output_tokens
    then false
  else true

/-- The content comparison of `isMessageEqual`: when both contents are
item sequences, compare lengths and positionwise shallow item equality
and continue with `u` (the trailing usage comparison); otherwise the raw
contents must agree (`prevContent !== nextContent`). -/
def contentCheck (c1 c2 : Option MsgContent) (u : Bool) : Bool :=
  match c1, c2 with
  | some (MsgContent.items l1), some (MsgContent.items l2) =>
      if l1.length != l2.length then false
      else if !((List.zip l1 l2).all fun q => itemEqualShallow q.1 q.2) then
        false
      else u
  | d1, d2 => if d1 != d2 then false else u

/-- `isMessageEqual` from `StreamMessageV2.tsx`. The `prev === next`
reference short-circuit of the source is subsumed here: on structurally
identical inputs every comparison below succeeds (`isMessageEqual_refl`). -/
def isMessageEqual (prev next : ClaudeStreamMessage) : Bool :=
  if prev.type != next.type then false
  else if truthyStr prev.id && truthyStr next.id && prev.id != next.id then
    false
  else if prev.timestamp != next.timestamp then false
  else contentCheck (rawContent prev) (rawContent next) (usageCheck prev next)

/-- `isMessageGroupEqual` from `StreamMessageV2.tsx`: `normal` entries
compare by message (the index is not inspected); `subagent` entries
compare task message, member count and per-position members; a pair of
`aggregated` entries falls through every branch to `return true`; a
variant mismatch is unequal. -/
def isMessageGroupEqual (prev next : MessageGroup) : Bool :=
  match prev, next with
  | MessageGroup.normal m1 _, MessageGroup.normal m2 _ => isMessageEqual m1 m2
  | MessageGroup.subagent g1, MessageGroup.subagent g2 =>
      isMessageEqual g1.taskMessage g2.taskMessage &&
      g1.subagentMessages.length == g2.subagentMessages.length &&
      ((List.zip g1.subagentMessages g2.subagentMessages).all fun q =>
        isMessageEqual q.1.2 q.2.2)
  | MessageGroup.aggregated _ _, MessageGroup.aggregated _ _ => true
  | _, _ => false

/-! ## Example inputs used by counterexamples and witnesses -/

/-- A `tool_use` content item invoking the `task` tool with id `tid`. -/
def taskItem (tid : String) : ContentItem :=
  { type := "tool_use", id := some tid, name := some "task" }

/-- An assistant message whose only content is a `task` invocation with
tool-use id `tid`. -/
def mTask (tid : String) : ClaudeStreamMessage :=
  { type := "assistant",
    message := some { content := some (MsgContent.items [taskItem tid]) } }

/-- A user message with `parent_tool_use_id := pid` and message id `mid`. -/
def mChild (pid : String) (mid : String) : ClaudeStreamMessage :=
  { type := "user", id := some mid, parent_tool_use_id := some pid }

/-- A `thinking`-typed message with no `content` at all. -/
def mThink : ClaudeStreamMessage := { type := "thinking" }

/-- Input where a parent-linked message precedes its task invocation:
index 0 carries `parent_tool_use_id = T` but the task invocation for `T`
sits at index 1. -/
def exEarlyParent : List ClaudeStreamMessage :=
  [mChild "T" "a", mTask "T", mChild "T" "b"]

/-- Input with two interleaved subagent groups: tasks `A` (index 0) and
`B` (index 1), with members at indices 2, 5 (for `A`) and 3, 4 (for `B`). -/
def exInterleaved : List ClaudeStreamMessage :=
  [mTask "A", mTask "B", mChild "A" "a1", mChild "B" "b1",
   mChild "B" "b2", mChild "A" "a2"]

/-! ## Specification-side definitions

These definitions are written from the words of the specification and of
the claims (not from the source); theorems below compare them with the
source-side definitions above. -/

/-- The item admissibility predicate of the specification's
`isTechnicalMessage` description: `tool_use`, `tool_result`, `thinking`,
or a `text` item whose trimmed text is empty. -/
def specTechnicalItem (it : ContentItem) : Bool :=
  it.type == "tool_use" || it.type == "tool_result" || it.type == "thinking" ||
    (it.type == "text" &&
      (match it.text with
       | none => true
       | some t => strTrim t == ""))

/-- The message comparator exactly as the claim words it: identical to
`isMessageEqual` except that timestamps are required equal **only when
both sides define a timestamp**. Written from the claim, not from the
source. -/
def claimMessageEqual (prev next : ClaudeStreamMessage) : Bool :=
  if prev.type != next.type then false
  else if truthyStr prev.id && truthyStr next.id && prev.id != next.id then
    false
  else if prev.timestamp.isSome && next.timestamp.isSome &&
      prev.timestamp != next.timestamp then false
  else contentCheck (rawContent prev) (rawContent next) (usageCheck prev next)

/-- Per-item equality as the spec words it: equal item `type` plus the
type-specific shallow fields. -/
def specItemEqual (a b : ContentItem) : Bool :=
  a.type == b.type &&
  (a.type != "text" || a.text == b.text) &&
  (a.type != "tool_use" || (a.id == b.id && a.name == b.name)) &&
  (a.type != "tool_result" || a.tool_use_id == b.tool_use_id)

/-- Content equality as the spec words it: item sequences compare by
length and positionwise shallow item equality; otherwise the raw values
must agree. -/
def specContentEqual : Option MsgContent → Option MsgContent → Bool
  | some (MsgContent.items l1), some (MsgContent.items l2) =>
      l1.length == l2.length &&
        ((List.zip l1 l2).all fun q => specItemEqual q.1 q.2)
  | c1, c2 => c1 == c2

/-- Usage equality as the spec words it. -/
def specUsageEqual (prev next : ClaudeStreamMessage) : Bool :=
  (usageField (effectiveUsage prev) Usage.input_tokens ==
    usageField (effectiveUsage next) Usage.input_tokens) &&
  (usageField (effectiveUsage prev) Usage.output_tokens ==
    usageField (effectiveUsage next) Usage.output_tokens)

/-- The amended message-equality contract: as the claim states it, except
that timestamps are always compared (a timestamp present on exactly one
side makes the messages unequal). -/
def specMessageEqual (prev next : ClaudeStreamMessage) : Bool :=
  prev.type == next.type &&
  (!(truthyStr prev.id) || !(truthyStr next.id) || prev.id == next.id) &&
  prev.timestamp == next.timestamp &&
  specContentEqual (rawContent prev) (rawContent next) &&
  specUsageEqual prev next

/-- Variant tag equality of two render groups. -/
def sameVariantTag : MessageGroup → MessageGroup → Bool
  | MessageGroup.normal _ _, MessageGroup.normal _ _ => true
  | MessageGroup.subagent _, MessageGroup.subagent _ => true
  | MessageGroup.aggregated _ _, MessageGroup.aggregated _ _ => true
  | _, _ => false

/-- Original indices carried by a render group as a `normal` payload or
as `aggregated` members. -/
def naIdxs : MessageGroup → List Nat
  | MessageGroup.normal _ i => [i]
  | MessageGroup.aggregated ms _ => ms.map Prod.fst
  | MessageGroup.subagent _ => []

/-- Original indices carried by a render group as subagent members. -/
def memberIdxs : MessageGroup → List Nat
  | MessageGroup.subagent g => g.subagentMessages.map Prod.fst
  | _ => []

/-- The owning task message's index of a `subagent` entry. -/
def ownerIdxs : MessageGroup → List Nat
  | MessageGroup.subagent g => [g.startIndex]
  | _ => []

/-- All `normal`-payload and `aggregated`-member indices of an output
sequence, in output order. -/
def flattenNA (out : List MessageGroup) : List Nat := out.flatMap naIdxs

/-- All subagent-member indices of an output sequence, in output order. -/
def flattenMembers (out : List MessageGroup) : List Nat :=
  out.flatMap memberIdxs

/-- All owning-task indices of an output sequence, in output order. -/
def flattenOwners (out : List MessageGroup) : List Nat := out.flatMap ownerIdxs

/-- First-appearance order of the message indices in the flattened
output: a `normal` entry shows its message, a `subagent` entry shows the
task message followed by the subagent messages, an `aggregated` entry
shows its members. -/
def flattenAll (out : List MessageGroup) : List Nat :=
  out.flatMap (fun g =>
    match g with
    | MessageGroup.normal _ i => [i]
    | MessageGroup.subagent sg =>
        sg.startIndex :: sg.subagentMessages.map Prod.fst
    | MessageGroup.aggregated ms _ => ms.map Prod.fst)

/-- Strict ascent of a list of indices (every element smaller than the
next). -/
def strictAscend : List Nat → Bool
  | [] => true
  | [_] => true
  | a :: b :: rest => decide (a < b) && strictAscend (b :: rest)

/-! ## Basic lemmas about the equality oracle -/

theorem itemEqualShallow_refl (a : ContentItem) : itemEqualShallow a a = true := by
  simp [itemEqualShallow]

theorem zip_all_itemEqualShallow_refl (l : List ContentItem) :
    ((List.zip l l).all fun q => itemEqualShallow q.1 q.2) = true := by
  induction l with
  | nil => rfl
  | cons a as ih => simp [List.zip, ih, itemEqualShallow_refl]

theorem usageCheck_refl (m : ClaudeStreamMessage) : usageCheck m m = true := by
  simp [usageCheck]

theorem contentCheck_refl (c : Option MsgContent) (u : Bool) (hu : u = true) :
    contentCheck c c u = true := by
  subst hu
  rcases c with _ | c
  · simp [contentCheck]
  · rcases c with s | l
    · simp [contentCheck]
    · simp [contentCheck, zip_all_itemEqualShallow_refl]

theorem isMessageEqual_refl (m : ClaudeStreamMessage) :
    isMessageEqual m m = true := by
  unfold isMessageEqual
  simp only [bne_self_eq_false, Bool.false_eq_true, if_false, Bool.and_false]
  exact contentCheck_refl _ _ (usageCheck_refl m)

theorem zip_all_isMessageEqual_refl (l : List (Nat × ClaudeStreamMessage)) :
    ((List.zip l l).all fun q => isMessageEqual q.1.2 q.2.2) = true := by
  induction l with
  | nil => rfl
  | cons a as ih =>
      rw [List.zip_cons_cons, List.all_cons, ih, isMessageEqual_refl]
      rfl

theorem isMessageGroupEqual_refl (g : MessageGroup) :
    isMessageGroupEqual g g = true := by
  cases g with
  | normal m i => simp [isMessageGroupEqual, isMessageEqual_refl]
  | subagent sg =>
      simp [isMessageGroupEqual, isMessageEqual_refl,
        zip_all_isMessageEqual_refl]
  | aggregated ms i => rfl

theorem sameVariantTag_refl (g : MessageGroup) : sameVariantTag g g = true := by
  cases g <;> rfl

theorem strLength_beq_zero (s : String) : (s.length == 0) = (s == "") := by
  rcases s with ⟨data⟩
  cases data with
  | nil => rfl
  | cons c cs => rfl

theorem blank_text_check (t : String) :
    (t == "" || (strTrim t).length == 0) = (strTrim t == "") := by
  by_cases h : t = ""
  · subst h; rfl
  · have hb : (t == "") = false := beq_eq_false_iff_ne.mpr h
    rw [hb, Bool.false_or, strLength_beq_zero]

theorem techItem_eq_specTechnicalItem (it : ContentItem) :
    (if it.type == "tool_use" then true
     else if it.type == "tool_result" then true
     else if it.type == "thinking" then true
     else if it.type == "text" then
       match it.text with
       | none => true
       | some t => t == "" || (strTrim t).length == 0
     else false) = specTechnicalItem it := by
  unfold specTechnicalItem
  cases hU : it.type == "tool_use" <;>
  cases hR : it.type == "tool_result" <;>
  cases hTh : it.type == "thinking" <;>
  cases hTx : it.type == "text" <;>
  simp_all
  all_goals
    cases ht : it.text with
    | none => rfl
    | some t => exact blank_text_check t

/-- **C7** (confirmed): for any two `aggregated` render groups,
`isMessageGroupEqual` returns `true` unconditionally — it never inspects
the aggregated message lists, their lengths, or their indices. -/
theorem isMessageGroupEqual_aggregated_always_true
    (ms1 : List (Nat × ClaudeStreamMessage)) (i1 : Nat)
    (ms2 : List (Nat × ClaudeStreamMessage)) (i2 : Nat) :
    isMessageGroupEqual (MessageGroup.aggregated ms1 i1)
      (MessageGroup.aggregated ms2 i2) = true := rfl

/-- **C8** (confirmed): `isTechnicalMessage` returns `true` for every
`thinking`-typed message regardless of content; otherwise it returns
`true` iff the message is an assistant message whose content is an item
sequence all of whose items are `tool_use`, `tool_result`, `thinking`, or
`text` with blank text; any other item type, or a `text` item with
non-blank text, makes it `false`. -/
theorem isTechnicalMessage_spec (m : ClaudeStreamMessage) :
    isTechnicalMessage m =
      (m.type == "thinking" ||
        (m.type == "assistant" &&
          (match contentItems m with
           | some l => l.all specTechnicalItem
           | none => false))) := by
  unfold isTechnicalMessage
  cases h1 : m.type == "thinking" with
  | true => simp
  | false =>
    simp only [if_false, Bool.false_or]
    cases h2 : m.type == "assistant" with
    | false => simp [bne, h2]
    | true =>
      simp only [bne, h2, Bool.not_true, if_false, Bool.true_and]
      cases hc : contentItems m with
      | none => rfl
      | some l =>
        have : (fun it : ContentItem =>
            (if it.type == "tool_use" then true
             else if it.type == "tool_result" then true
             else if it.type == "thinking" then true
             else if it.type == "text" then
               match it.text with
               | none => true
               | some t => t == "" || (strTrim t).length == 0
             else false)) = specTechnicalItem := by
          funext it
          exact techItem_eq_specTechnicalItem it
        rw [this]
        simp

/-- **C3** (counterexample): a `thinking`-typed message with *no* content
field is classified technical, so the claim that a missing `content`
makes `isTechnicalMessage` return false "regardless of the message's type
tag" is false on the code. -/
theorem malformed_thinking_is_technical :
    contentItems mThink = none ∧ isTechnicalMessage mThink = true := by
  constructor
  · rfl
  · rfl

/-- **C3** (amended): for every message whose `content` is missing or not
an item sequence, `hasTaskToolCall` returns false, and `isTechnicalMessage`
returns false *unless* the message's type is `thinking`, in which case it
returns true. (All model functions are total, so no execution throws.) -/
theorem classifiers_on_malformed_content (m : ClaudeStreamMessage)
    (h : contentItems m = none) :
    hasTaskToolCall m = false ∧
      isTechnicalMessage m = (m.type == "thinking") := by
  constructor
  · unfold hasTaskToolCall
    rw [h]
    split <;> rfl
  · unfold isTechnicalMessage
    rw [h]
    cases ht : m.type == "thinking" with
    | true => simp
    | false => simp [ite_self]

/-- Witness for `classifiers_on_malformed_content` at the concrete
content-free message `mThink`. -/
theorem classifiers_on_malformed_content_witness :
    hasTaskToolCall mThink = false ∧
      isTechnicalMessage mThink = (mThink.type == "thinking") :=
  classifiers_on_malformed_content mThink (by decide)

/-! ## The equality oracle versus the spec's description (C6) -/

theorem itemEqualShallow_eq_spec (a b : ContentItem) :
    itemEqualShallow a b = specItemEqual a b := by
  unfold itemEqualShallow specItemEqual
  cases hA : a.type == b.type <;>
  cases hT : a.type == "text" <;>
  cases hU : a.type == "tool_use" <;>
  cases hR : a.type == "tool_result" <;>
  cases htx : a.text == b.text <;>
  cases hid : a.id == b.id <;>
  cases hnm : a.name == b.name <;>
  cases htu : a.tool_use_id == b.tool_use_id <;>
  simp_all [bne]

theorem usageCheck_eq_spec (a b : ClaudeStreamMessage) :
    usageCheck a b = specUsageEqual a b := by
  unfold usageCheck specUsageEqual
  cases h1 : usageField (effectiveUsage a) Usage.input_tokens ==
      usageField (effectiveUsage b) Usage.input_tokens <;>
  cases h2 : usageField (effectiveUsage a) Usage.output_tokens ==
      usageField (effectiveUsage b) Usage.output_tokens <;>
  simp_all [bne]

theorem ite_bne_false (x y : Option MsgContent) (u : Bool) :
    (if x != y then false else u) = ((x == y) && u) := by
  cases h : x == y <;> simp [bne, h]

theorem contentCheck_eq_spec (c1 c2 : Option MsgContent) (u : Bool) :
    contentCheck c1 c2 u = (specContentEqual c1 c2 && u) := by
  have hfun : (fun q : ContentItem × ContentItem => itemEqualShallow q.1 q.2)
      = (fun q => specItemEqual q.1 q.2) := by
    funext q
    exact itemEqualShallow_eq_spec q.1 q.2
  rcases c1 with _ | c1
  · exact ite_bne_false _ _ u
  · rcases c1 with s1 | l1
    · exact ite_bne_false _ _ u
    · rcases c2 with _ | c2
      · show false = ((some (MsgContent.items l1) == none) && u)
        rfl
      · rcases c2 with s2 | l2
        · show false =
            ((some (MsgContent.items l1) == some (MsgContent.str s2)) && u)
          rfl
        · show (if l1.length != l2.length then false
                else if !((List.zip l1 l2).all fun q =>
                    itemEqualShallow q.1 q.2) then false
                else u) =
              ((l1.length == l2.length &&
                ((List.zip l1 l2).all fun q => specItemEqual q.1 q.2)) && u)
          rw [hfun]
          cases hl : l1.length == l2.length <;>
          cases ha : ((List.zip l1 l2).all fun q => specItemEqual q.1 q.2) <;>
          simp [bne, hl, ha]

/-- **C6** (counterexample): two messages that agree on every compared
field except that exactly one side defines a timestamp. The claim's
comparator (`claimMessageEqual`, timestamps compared only when both
present) calls them equal, but the source's `isMessageEqual` compares
timestamps unconditionally and returns false. -/
theorem message_equality_timestamp_cex :
    claimMessageEqual { type := "assistant", timestamp := some "t1" }
        { type := "assistant" } = true ∧
      isMessageEqual { type := "assistant", timestamp := some "t1" }
        { type := "assistant" } = false := by
  constructor
  · rfl
  · rfl

/-- **C6** (amended): `isMessageEqual` returns true exactly under the
spec's conditions *with the timestamp clause strengthened*: equal `type`;
equal ids when both ids are present and non-empty; **identical optional
timestamps** (a timestamp on exactly one side makes the messages
unequal); content compared by length and shallow per-item fields for item
sequences, by raw value otherwise; and equal effective usage token
counts. -/
theorem isMessageEqual_eq_spec (a b : ClaudeStreamMessage) :
    isMessageEqual a b = specMessageEqual a b := by
  unfold isMessageEqual specMessageEqual
  rw [contentCheck_eq_spec, usageCheck_eq_spec]
  cases hA : a.type == b.type <;>
  cases hP : truthyStr a.id <;>
  cases hQ : truthyStr b.id <;>
  cases hI : a.id == b.id <;>
  cases hT : a.timestamp == b.timestamp <;>
  simp_all [bne, Bool.and_assoc]

/-! ## Idempotence of the pipeline under the equality oracle (C10) -/

theorem zip_all_self_groupEqual (l : List MessageGroup) :
    ((l.zip l).all fun q =>
      sameVariantTag q.1 q.2 && isMessageGroupEqual q.1 q.2) = true := by
  induction l with
  | nil => rfl
  | cons g gs ih =>
      rw [List.zip_cons_cons, List.all_cons, ih, sameVariantTag_refl,
        isMessageGroupEqual_refl]
      rfl

/-- **C10** (confirmed): `groupMessages` is a pure function of its input,
so two runs over the same immutable input produce output sequences of
equal length whose corresponding entries carry the same variant tag and
compare equal under `isMessageGroupEqual` (which is reflexive). -/
theorem groupMessages_idempotent (msgs : List ClaudeStreamMessage) :
    (groupMessages msgs).length = (groupMessages msgs).length ∧
    (((groupMessages msgs).zip (groupMessages msgs)).all fun q =>
        sameVariantTag q.1 q.2 && isMessageGroupEqual q.1 q.2) = true :=
  ⟨rfl, zip_all_self_groupEqual (groupMessages msgs)⟩

/-! ## The aggregation pass versus the spec's run decomposition (C4) -/

/-- An intermediate entry that is a `normal` entry with a technical
message (the entries an aggregation run is made of). -/
def technicalNormal : IGroup → Bool
  | IGroup.normal m _ => isTechnicalMessage m
  | IGroup.subagent _ => false

theorem dropWhile_length_le {α : Type} (p : α → Bool) (l : List α) :
    (l.dropWhile p).length ≤ l.length := by
  induction l with
  | nil => simp [List.dropWhile]
  | cons a as ih =>
      rw [List.dropWhile_cons]
      cases p a <;> simp_all
      omega

/-- The indexed message carried by an intermediate entry (for `subagent`
entries — which never occur inside a technical run — the task message). -/
def runPayload : IGroup → (Nat × ClaudeStreamMessage)
  | IGroup.normal m i => (i, m)
  | IGroup.subagent g => (g.startIndex, g.taskMessage)

/-- The aggregation pass as the specification words it: each **maximal**
run of consecutive technical `normal` entries (bounded by a `subagent`
entry, a non-technical `normal` entry, or a sequence boundary) becomes
exactly one `aggregated` entry carrying the run's messages in order and
indexed by the first member's original index; singleton runs included;
all other entries pass through unchanged. Written from the spec, not from
the source. -/
def aggSpec : List IGroup → List MessageGroup
  | [] => []
  | IGroup.subagent g :: rest => MessageGroup.subagent g :: aggSpec rest
  | IGroup.normal m i :: rest =>
      if isTechnicalMessage m then
        MessageGroup.aggregated
            ((i, m) :: (rest.takeWhile technicalNormal).map runPayload) i ::
          aggSpec (rest.dropWhile technicalNormal)
      else MessageGroup.normal m i :: aggSpec rest
termination_by l => l.length
decreasing_by
  all_goals simp only [List.length_cons]
  · omega
  · have h := dropWhile_length_le technicalNormal rest
    omega
  · omega

theorem aggSpec_nil : aggSpec [] = [] := by
  rw [aggSpec]

theorem aggSpec_subagent (g : SubagentGroup) (rest : List IGroup) :
    aggSpec (IGroup.subagent g :: rest) =
      MessageGroup.subagent g :: aggSpec rest := by
  rw [aggSpec]

theorem aggSpec_normal (m : ClaudeStreamMessage) (idx : Nat)
    (rest : List IGroup) :
    aggSpec (IGroup.normal m idx :: rest) =
      if isTechnicalMessage m then
        MessageGroup.aggregated
            ((idx, m) :: (rest.takeWhile technicalNormal).map runPayload) idx ::
          aggSpec (rest.dropWhile technicalNormal)
      else MessageGroup.normal m idx :: aggSpec rest := by
  rw [aggSpec]

theorem aggLoop_spec (l : List IGroup) :
    (aggLoop l none = aggSpec l) ∧
    (∀ ms i, aggLoop l (some (ms, i)) =
      MessageGroup.aggregated
          (ms ++ (l.takeWhile technicalNormal).map runPayload) i ::
        aggSpec (l.dropWhile technicalNormal)) := by
  induction l with
  | nil =>
      constructor
      · rw [aggSpec_nil]
        rfl
      · intro ms i
        simp [aggLoop, aggSpec_nil]
  | cons hd rest ih =>
      constructor
      · cases hd with
        | subagent g =>
            show MessageGroup.subagent g :: aggLoop rest none = aggSpec _
            rw [ih.1, aggSpec]
        | normal m idx =>
            show aggLoop (IGroup.normal m idx :: rest) none = aggSpec _
            rw [aggSpec]
            cases ht : isTechnicalMessage m with
            | true =>
                rw [aggLoop]
                simp only [ht, if_true]
                rw [ih.2]
                simp
            | false =>
                rw [aggLoop]
                simp only [ht, Bool.false_eq_true, if_false]
                rw [ih.1]
      · intro ms i
        cases hd with
        | subagent g =>
            show MessageGroup.aggregated ms i :: MessageGroup.subagent g ::
                aggLoop rest none = _
            rw [ih.1]
            have h1 : List.takeWhile technicalNormal
                (IGroup.subagent g :: rest) = [] := by
              simp [List.takeWhile, technicalNormal]
            have h2 : List.dropWhile technicalNormal
                (IGroup.subagent g :: rest) = IGroup.subagent g :: rest := by
              simp [List.dropWhile, technicalNormal]
            rw [h1, h2, aggSpec]
            simp
        | normal m idx =>
            rw [aggLoop]
            cases ht : isTechnicalMessage m with
            | true =>
                simp only [ht, if_true]
                rw [(ih.2 (ms ++ [(idx, m)]) i)]
                have h1 : List.takeWhile technicalNormal
                    (IGroup.normal m idx :: rest) =
                    IGroup.normal m idx :: List.takeWhile technicalNormal rest := by
                  simp [List.takeWhile, technicalNormal, ht]
                have h2 : List.dropWhile technicalNormal
                    (IGroup.normal m idx :: rest) =
                    List.dropWhile technicalNormal rest := by
                  simp [List.dropWhile, technicalNormal, ht]
                rw [h1, h2]
                simp [runPayload]
            | false =>
                simp only [ht, Bool.false_eq_true, if_false]
                rw [ih.1]
                have h1 : List.takeWhile technicalNormal
                    (IGroup.normal m idx :: rest) = [] := by
                  simp [List.takeWhile, technicalNormal, ht]
                have h2 : List.dropWhile technicalNormal
                    (IGroup.normal m idx :: rest) =
                    IGroup.normal m idx :: rest := by
                  simp [List.dropWhile, technicalNormal, ht]
                rw [h1, h2, aggSpec]
                simp [ht]

/-- **C4** (confirmed): the aggregation pass of `groupMessages` equals
the spec-side run decomposition `aggSpec`: every maximal run of
consecutive technical `normal` entries — bounded by a non-technical
`normal` entry, a `subagent` entry, or a sequence boundary — becomes
exactly one `aggregated` entry carrying the run's messages in order,
indexed by the first member's original index; singletons are still
aggregated; runs never span a `subagent` entry. -/
theorem aggregation_pass_is_run_decomposition :
    (∀ msgs, groupMessages msgs =
      aggSpec (buildIntermediate msgs (resolvePass msgs)
        (buildSubagentGroups msgs (resolvePass msgs)))) ∧
    (∀ l : List IGroup, aggLoop l none = aggSpec l) := by
  constructor
  · intro msgs
    exact (aggLoop_spec _).1
  · intro l
    exact (aggLoop_spec l).1

/-! ## Projections of intermediate and final sequences -/

/-- The indexed messages of the `normal` entries of an intermediate
sequence, in order. -/
def normalsOfI : List IGroup → List (Nat × ClaudeStreamMessage)
  | [] => []
  | IGroup.normal m i :: rest => (i, m) :: normalsOfI rest
  | IGroup.subagent _ :: rest => normalsOfI rest

/-- The subagent groups of an intermediate sequence, in order. -/
def subagentsOfI : List IGroup → List SubagentGroup
  | [] => []
  | IGroup.normal _ _ :: rest => subagentsOfI rest
  | IGroup.subagent g :: rest => g :: subagentsOfI rest

/-- The subagent groups of a final sequence, in order. -/
def subagentsOfM : List MessageGroup → List SubagentGroup
  | [] => []
  | MessageGroup.subagent g :: rest => g :: subagentsOfM rest
  | _ :: rest => subagentsOfM rest

/-- The indexed messages carried by `normal` payloads and `aggregated`
members of a final sequence, in order. -/
def naPairs : List MessageGroup → List (Nat × ClaudeStreamMessage)
  | [] => []
  | MessageGroup.normal m i :: rest => (i, m) :: naPairs rest
  | MessageGroup.aggregated ms _ :: rest => ms ++ naPairs rest
  | MessageGroup.subagent _ :: rest => naPairs rest

/-- The indexed messages of the `normal` entries of a final sequence. -/
def normalEntriesOfM : List MessageGroup → List (Nat × ClaudeStreamMessage)
  | [] => []
  | MessageGroup.normal m i :: rest => (i, m) :: normalEntriesOfM rest
  | _ :: rest => normalEntriesOfM rest

/-- The indexed members of the `aggregated` entries of a final sequence. -/
def aggMembersOfM : List MessageGroup → List (Nat × ClaudeStreamMessage)
  | [] => []
  | MessageGroup.aggregated ms _ :: rest => ms ++ aggMembersOfM rest
  | _ :: rest => aggMembersOfM rest

theorem run_split_normals (l : List IGroup) :
    (l.takeWhile technicalNormal).map runPayload ++
      normalsOfI (l.dropWhile technicalNormal) = normalsOfI l := by
  induction l with
  | nil => rfl
  | cons hd rest ih =>
      cases hd with
      | subagent g =>
          rw [List.takeWhile_cons, List.dropWhile_cons]
          simp [technicalNormal, normalsOfI, ih]
      | normal m i =>
          rw [List.takeWhile_cons, List.dropWhile_cons]
          cases ht : isTechnicalMessage m with
          | true => simp [technicalNormal, ht, normalsOfI, runPayload, ih]
          | false => simp [technicalNormal, ht, normalsOfI]

theorem run_split_subagents (l : List IGroup) :
    subagentsOfI (l.dropWhile technicalNormal) = subagentsOfI l := by
  induction l with
  | nil => rfl
  | cons hd rest ih =>
      cases hd with
      | subagent g => rw [List.dropWhile_cons]; simp [technicalNormal]
      | normal m i =>
          rw [List.dropWhile_cons]
          cases ht : isTechnicalMessage m with
          | true => simp [technicalNormal, ht, subagentsOfI, ih]
          | false => simp [technicalNormal, ht]

theorem run_split_tech (l : List IGroup) :
    (normalsOfI l).filter (fun p => isTechnicalMessage p.2) =
      (l.takeWhile technicalNormal).map runPayload ++
        (normalsOfI (l.dropWhile technicalNormal)).filter
          (fun p => isTechnicalMessage p.2) := by
  induction l with
  | nil => rfl
  | cons hd rest ih =>
      cases hd with
      | subagent g =>
          rw [List.takeWhile_cons, List.dropWhile_cons]
          simp [technicalNormal, normalsOfI]
      | normal m i =>
          rw [List.takeWhile_cons, List.dropWhile_cons]
          cases ht : isTechnicalMessage m with
          | true =>
              simp only [technicalNormal, ht, if_true, normalsOfI]
              rw [List.filter_cons]
              simp [ht, runPayload, ih]
          | false =>
              simp only [technicalNormal, ht, Bool.false_eq_true, if_false,
                normalsOfI]
              rw [List.filter_cons]
              simp [ht]

theorem run_split_nontech (l : List IGroup) :
    (normalsOfI (l.dropWhile technicalNormal)).filter
        (fun p => !isTechnicalMessage p.2) =
      (normalsOfI l).filter (fun p => !isTechnicalMessage p.2) := by
  induction l with
  | nil => rfl
  | cons hd rest ih =>
      cases hd with
      | subagent g => rw [List.dropWhile_cons]; simp [technicalNormal, normalsOfI]
      | normal m i =>
          rw [List.dropWhile_cons]
          cases ht : isTechnicalMessage m with
          | true =>
              simp only [technicalNormal, ht, if_true, normalsOfI]
              rw [ih, List.filter_cons]
              simp [ht]
          | false => simp [technicalNormal, ht]

theorem naPairs_aggSpec (l : List IGroup) : naPairs (aggSpec l) = normalsOfI l := by
  induction l using aggSpec.induct with
  | case1 => rw [aggSpec_nil]; rfl
  | case2 g rest ih => rw [aggSpec_subagent]; simp [naPairs, normalsOfI, ih]
  | case3 m i rest ht ih =>
      rw [aggSpec_normal]
      simp only [ht, if_true, naPairs]
      rw [ih]
      show ((i, m) :: (rest.takeWhile technicalNormal).map runPayload) ++
          normalsOfI (rest.dropWhile technicalNormal) = normalsOfI (IGroup.normal m i :: rest)
      rw [List.cons_append, run_split_normals]
      rfl
  | case4 m i rest ht ih =>
      rw [aggSpec_normal]
      simp only [ht, Bool.false_eq_true, if_false, naPairs]
      rw [ih]
      rfl

theorem subagentsOfM_aggSpec (l : List IGroup) :
    subagentsOfM (aggSpec l) = subagentsOfI l := by
  induction l using aggSpec.induct with
  | case1 => rw [aggSpec_nil]; rfl
  | case2 g rest ih => rw [aggSpec_subagent]; simp [subagentsOfM, subagentsOfI, ih]
  | case3 m i rest ht ih =>
      rw [aggSpec_normal]
      simp only [ht, if_true]
      show subagentsOfM (aggSpec (rest.dropWhile technicalNormal)) =
        subagentsOfI (IGroup.normal m i :: rest)
      rw [ih, run_split_subagents]
      rfl
  | case4 m i rest ht ih =>
      rw [aggSpec_normal]
      simp only [ht, Bool.false_eq_true, if_false]
      show subagentsOfM (aggSpec rest) = subagentsOfI (IGroup.normal m i :: rest)
      rw [ih]
      rfl

theorem normalEntries_aggSpec (l : List IGroup) :
    normalEntriesOfM (aggSpec l) =
      (normalsOfI l).filter (fun p => !isTechnicalMessage p.2) := by
  induction l using aggSpec.induct with
  | case1 => rw [aggSpec_nil]; rfl
  | case2 g rest ih =>
      rw [aggSpec_subagent]
      show normalEntriesOfM (aggSpec rest) = _
      rw [ih]
      rfl
  | case3 m i rest ht ih =>
      rw [aggSpec_normal]
      simp only [ht, if_true]
      show normalEntriesOfM (aggSpec (rest.dropWhile technicalNormal)) = _
      rw [ih, run_split_nontech]
      show _ = (normalsOfI (IGroup.normal m i :: rest)).filter
        (fun p => !isTechnicalMessage p.2)
      show _ = ((i, m) :: normalsOfI rest).filter (fun p => !isTechnicalMessage p.2)
      rw [List.filter_cons]
      simp [ht]
  | case4 m i rest ht ih =>
      rw [aggSpec_normal]
      simp only [ht, Bool.false_eq_true, if_false]
      show (i, m) :: normalEntriesOfM (aggSpec rest) = _
      rw [ih]
      show _ = ((i, m) :: normalsOfI rest).filter (fun p => !isTechnicalMessage p.2)
      rw [List.filter_cons]
      simp [ht]

theorem aggMembers_aggSpec (l : List IGroup) :
    aggMembersOfM (aggSpec l) =
      (normalsOfI l).filter (fun p => isTechnicalMessage p.2) := by
  induction l using aggSpec.induct with
  | case1 => rw [aggSpec_nil]; rfl
  | case2 g rest ih =>
      rw [aggSpec_subagent]
      show aggMembersOfM (aggSpec rest) = _
      rw [ih]
      rfl
  | case3 m i rest ht ih =>
      rw [aggSpec_normal]
      simp only [ht, if_true]
      show ((i, m) :: (rest.takeWhile technicalNormal).map runPayload) ++
          aggMembersOfM (aggSpec (rest.dropWhile technicalNormal)) = _
      rw [ih]
      show _ = (normalsOfI (IGroup.normal m i :: rest)).filter
        (fun p => isTechnicalMessage p.2)
      show _ = ((i, m) :: normalsOfI rest).filter (fun p => isTechnicalMessage p.2)
      rw [List.filter_cons]
      simp only [ht, if_true, List.cons_append]
      rw [← run_split_tech]
  | case4 m i rest ht ih =>
      rw [aggSpec_normal]
      simp only [ht, Bool.false_eq_true, if_false]
      show aggMembersOfM (aggSpec rest) = _
      rw [ih]
      show _ = ((i, m) :: normalsOfI rest).filter (fun p => isTechnicalMessage p.2)
      rw [List.filter_cons]
      simp [ht]

/-! ## Membership and append lemmas for the projections -/

theorem normalsOfI_append (a b : List IGroup) :
    normalsOfI (a ++ b) = normalsOfI a ++ normalsOfI b := by
  induction a with
  | nil => rfl
  | cons hd rest ih => cases hd <;> simp [normalsOfI, ih]

theorem subagentsOfI_append (a b : List IGroup) :
    subagentsOfI (a ++ b) = subagentsOfI a ++ subagentsOfI b := by
  induction a with
  | nil => rfl
  | cons hd rest ih => cases hd <;> simp [subagentsOfI, ih]

theorem mem_normalEntriesOfM {out : List MessageGroup} {i : Nat}
    {m : ClaudeStreamMessage} :
    (i, m) ∈ normalEntriesOfM out ↔ MessageGroup.normal m i ∈ out := by
  induction out with
  | nil => simp [normalEntriesOfM]
  | cons g rest ih =>
      cases g <;> simp [normalEntriesOfM, ih]
      tauto

theorem mem_aggMembersOfM {out : List MessageGroup} {i : Nat}
    {m : ClaudeStreamMessage} :
    (i, m) ∈ aggMembersOfM out ↔
      ∃ ms k, MessageGroup.aggregated ms k ∈ out ∧ (i, m) ∈ ms := by
  induction out with
  | nil => simp [aggMembersOfM]
  | cons g rest ih =>
      cases g with
      | normal m2 i2 => simp [aggMembersOfM, ih]
      | subagent g2 => simp [aggMembersOfM, ih]
      | aggregated ms2 k2 =>
          simp only [aggMembersOfM, List.mem_append, ih, List.mem_cons]
          constructor
          · rintro (hms | ⟨ms3, k3, hmem, hin⟩)
            · exact ⟨ms2, k2, Or.inl rfl, hms⟩
            · exact ⟨ms3, k3, Or.inr hmem, hin⟩
          · rintro ⟨ms3, k3, h1 | h2, hin⟩
            · cases h1
              exact Or.inl hin
            · exact Or.inr ⟨ms3, k3, h2, hin⟩

theorem mem_subagentsOfM {out : List MessageGroup} {g : SubagentGroup} :
    g ∈ subagentsOfM out ↔ MessageGroup.subagent g ∈ out := by
  induction out with
  | nil => simp [subagentsOfM]
  | cons hd rest ih => cases hd <;> simp [subagentsOfM, ih]

/-! ## Characterizing the normal entries of the third pass -/

/-- The third pass emits a `normal` entry for index `i` (message `m`) iff
the message is not hidden inside a materialized group and its recorded
task ids (when any) all failed to materialize. -/
def emitsNormal (st : ResolverState) (groups : List (String × SubagentGroup))
    (i : Nat) (m : ClaudeStreamMessage) : Bool :=
  if isProcessed groups m then false
  else
    match mapGet st.indexToTaskIds i with
    | some tids =>
        if tids.isEmpty then true
        else !(tids.any fun tid => mapHas groups tid)
    | none => true

theorem innerFold_fst_normals (groups : List (String × SubagentGroup))
    (tids : List String) (acc : List IGroup × List String) :
    normalsOfI ((tids.foldl (interInnerStep groups) acc).1) =
      normalsOfI acc.1 := by
  induction tids generalizing acc with
  | nil => rfl
  | cons t ts ih =>
      rw [List.foldl_cons, ih]
      unfold interInnerStep
      cases h : mapGet groups t with
      | none => rfl
      | some g =>
          cases hc : acc.2.contains t with
          | true => simp
          | false => simp [normalsOfI_append, normalsOfI]

theorem interStep_normals (st : ResolverState)
    (groups : List (String × SubagentGroup)) (acc : List IGroup × List String)
    (p : Nat × ClaudeStreamMessage) :
    normalsOfI ((interStep st groups acc p).1) =
      normalsOfI acc.1 ++
        (if emitsNormal st groups p.1 p.2 then [(p.1, p.2)] else []) := by
  unfold interStep emitsNormal
  cases hp : isProcessed groups p.2 with
  | true => simp
  | false =>
      simp only [Bool.false_eq_true, if_false]
      generalize mapGet st.indexToTaskIds p.1 = o
      cases o with
      | none => simp [normalsOfI_append, normalsOfI]
      | some tids =>
          cases het : tids.isEmpty with
          | true => simp_all [List.isEmpty_iff, normalsOfI_append, normalsOfI]
          | false =>
              cases ha : tids.any (fun tid => mapHas groups tid) with
              | true =>
                  simp_all [List.isEmpty_iff, List.any_eq_true,
                    innerFold_fst_normals]
              | false =>
                  simp_all [List.isEmpty_iff, List.any_eq_true,
                    innerFold_fst_normals, normalsOfI_append, normalsOfI]
                  have hne : ¬∃ x ∈ tids, mapHas groups x = true := by
                    rintro ⟨x, hx, hxx⟩
                    rw [ha x hx] at hxx
                    cases hxx
                  rw [if_neg hne, normalsOfI_append, innerFold_fst_normals]
                  simp [normalsOfI]

theorem buildFold_normals (st : ResolverState)
    (groups : List (String × SubagentGroup))
    (ps : List (Nat × ClaudeStreamMessage)) :
    ∀ acc, normalsOfI ((ps.foldl (interStep st groups) acc).1) =
      normalsOfI acc.1 ++ (ps.filter fun p => emitsNormal st groups p.1 p.2) := by
  induction ps with
  | nil => intro acc; simp
  | cons p ps ih =>
      intro acc
      rw [List.foldl_cons, ih, interStep_normals, List.filter_cons]
      cases h : emitsNormal st groups p.1 p.2 <;> simp [h]

theorem buildIntermediate_normals (msgs : List ClaudeStreamMessage)
    (st : ResolverState) (groups : List (String × SubagentGroup)) :
    normalsOfI (buildIntermediate msgs st groups) =
      (enumFrom 0 msgs).filter (fun p => emitsNormal st groups p.1 p.2) := by
  unfold buildIntermediate
  rw [buildFold_normals]
  rfl

/-! ## Enumeration, map and fold lemmas -/

theorem mem_enumFrom {α : Type} {k i : Nat} {m : α} {l : List α} :
    (i, m) ∈ enumFrom k l ↔ k ≤ i ∧ l.get? (i - k) = some m := by
  induction l generalizing k with
  | nil => simp [enumFrom]
  | cons a as ih =>
      simp only [enumFrom, List.mem_cons, ih]
      constructor
      · rintro (h | ⟨h1, h2⟩)
        · rcases Prod.mk.injEq .. ▸ h with ⟨h1, h2⟩
          subst h1
          subst h2
          simp
        · refine ⟨by omega, ?_⟩
          have : i - k = (i - (k + 1)) + 1 := by omega
          rw [this]
          simpa using h2
      · rintro ⟨h1, h2⟩
        rcases Nat.eq_or_lt_of_le h1 with h | h
        · subst h
          simp only [Nat.sub_self, List.get?] at h2
          cases h2
          exact Or.inl rfl
        · right
          refine ⟨by omega, ?_⟩
          have : i - k = (i - (k + 1)) + 1 := by omega
          rw [this] at h2
          simpa using h2

theorem enumFrom_fst_ge {α : Type} {k j : Nat} {l : List α}
    (h : j ∈ (enumFrom k l).map Prod.fst) : k ≤ j := by
  induction l generalizing k with
  | nil => cases h
  | cons a as ih =>
      simp only [enumFrom, List.map_cons, List.mem_cons] at h
      rcases h with h | h
      · omega
      · have := ih h
        omega

theorem pairwise_lt_enumFrom_fst {α : Type} (k : Nat) (l : List α) :
    ((enumFrom k l).map Prod.fst).Pairwise (· < ·) := by
  induction l generalizing k with
  | nil => simp [enumFrom]
  | cons a as ih =>
      simp only [enumFrom, List.map_cons, List.pairwise_cons]
      constructor
      · intro j hj
        have := enumFrom_fst_ge hj
        omega
      · exact ih (k + 1)

theorem foldl_max_ge_init (l : List Nat) (a : Nat) :
    a ≤ l.foldl max a := by
  induction l generalizing a with
  | nil => simp
  | cons x xs ih =>
      rw [List.foldl_cons]
      exact le_trans (Nat.le_max_left a x) (ih (max a x))

theorem foldl_max_ge_mem (l : List Nat) (a : Nat) :
    ∀ x ∈ l, x ≤ l.foldl max a := by
  induction l generalizing a with
  | nil => simp
  | cons y ys ih =>
      intro x hx
      rcases List.mem_cons.mp hx with h | h
      · subst h
        exact le_trans (Nat.le_max_right a x) (foldl_max_ge_init ys (max a x))
      · exact ih (max a y) x h

theorem foldl_max_mem_or_init (l : List Nat) (a : Nat) :
    l.foldl max a = a ∨ l.foldl max a ∈ l := by
  induction l generalizing a with
  | nil => simp
  | cons y ys ih =>
      rw [List.foldl_cons]
      rcases ih (max a y) with h | h
      · rcases Nat.le_total a y with hy | hy
        · rw [Nat.max_eq_right hy] at h ⊢
          rw [h]
          exact Or.inr (List.mem_cons_self _ _)
        · rw [Nat.max_eq_left hy] at h ⊢
          exact Or.inl h
      · exact Or.inr (List.mem_cons_of_mem _ h)

theorem mapGet_mem {α β : Type} [BEq α] [LawfulBEq α]
    {m : List (α × β)} {k : α} {v : β} (h : mapGet m k = some v) :
    (k, v) ∈ m := by
  unfold mapGet at h
  cases hf : m.find? (fun p => p.1 == k) with
  | none => rw [hf] at h; cases h
  | some kv =>
      rw [hf] at h
      have hmem := List.mem_of_find?_eq_some hf
      have hk : kv.1 = k := by
        have hp := List.find?_some hf
        simpa using hp
      simp only [Option.map] at h
      rcases kv with ⟨k1, v1⟩
      simp only [Option.some.injEq] at h
      simp only at hk
      subst h
      subst hk
      exact hmem

/-! ## Invariants of the resolver and of the group builder -/

theorem foldl_inv_mem {α σ : Type} (f : σ → α → σ) (P : σ → Prop)
    (l : List α) (step : ∀ s a, a ∈ l → P s → P (f s a)) :
    ∀ s, P s → P (l.foldl f s) := by
  induction l with
  | nil => intro s h; exact h
  | cons x xs ih =>
      intro s h
      rw [List.foldl_cons]
      exact ih (fun s a ha hp => step s a (List.mem_cons_of_mem _ ha) hp) _
        (step s x (List.mem_cons_self _ _) h)

theorem mapSet_allPairs {α β : Type} [BEq α] {P : α × β → Prop}
    {m : List (α × β)} (hm : ∀ kv ∈ m, P kv) {k : α} {v : β}
    (hv : P (k, v)) : ∀ kv ∈ mapSet m k v, P kv := by
  intro kv hkv
  unfold mapSet at hkv
  by_cases h : m.any (fun p => p.1 == k)
  · rw [if_pos h] at hkv
    rcases List.mem_map.mp hkv with ⟨kv0, hkv0, heq⟩
    by_cases hk : kv0.1 == k
    · rw [if_pos hk] at heq
      subst heq
      exact hv
    · rw [if_neg hk] at heq
      subst heq
      exact hm kv0 hkv0
  · rw [if_neg h] at hkv
    rcases List.mem_append.mp hkv with h1 | h1
    · exact hm kv h1
    · simp only [List.mem_singleton] at h1
      subst h1
      exact hv

/-- Well-formedness of an entry of `taskToolUseMap`: the stored message
really sits at the stored index, and the key is one of its task ids. -/
def resolverPairWF (msgs : List ClaudeStreamMessage)
    (kv : String × TaskInfo) : Prop :=
  msgs.get? kv.2.index = some kv.2.message ∧
    kv.1 ∈ extractTaskToolUseIds kv.2.message

theorem resolveInnerStep_taskMap (message : ClaudeStreamMessage) (index : Nat)
    (details : List (String × Option String)) (st : ResolverState)
    (t : String) :
    (resolveInnerStep message index details st t).taskToolUseMap =
      mapSet st.taskToolUseMap t ⟨message, index⟩ := by
  unfold resolveInnerStep
  cases h : mapGet details t with
  | none => rfl
  | some o =>
      cases o with
      | none => rfl
      | some ty =>
          by_cases hty : ty == "" <;> simp [hty]

theorem resolveStep_taskMap_inv (msgs : List ClaudeStreamMessage)
    (p : Nat × ClaudeStreamMessage) (hp : msgs.get? p.1 = some p.2)
    (st : ResolverState)
    (h : ∀ kv ∈ st.taskToolUseMap, resolverPairWF msgs kv) :
    ∀ kv ∈ (resolveStep st p).taskToolUseMap, resolverPairWF msgs kv := by
  unfold resolveStep
  by_cases he : (extractTaskToolUseIds p.2).isEmpty
  · simp only [he, if_pos]
    exact h
  · simp only [he, Bool.false_eq_true, if_false]
    have hgen : ∀ tids : List String,
        (∀ t ∈ tids, t ∈ extractTaskToolUseIds p.2) →
        ∀ st1 : ResolverState,
          (∀ kv ∈ st1.taskToolUseMap, resolverPairWF msgs kv) →
          ∀ kv ∈ (tids.foldl
              (resolveInnerStep p.2 p.1 (extractTaskToolDetails p.2))
              st1).taskToolUseMap, resolverPairWF msgs kv := by
      intro tids
      induction tids with
      | nil => intro _ st1 h1; exact h1
      | cons t ts ih =>
          intro hsub st1 h1
          rw [List.foldl_cons]
          apply ih (fun t2 ht2 => hsub t2 (List.mem_cons_of_mem _ ht2))
          rw [resolveInnerStep_taskMap]
          apply mapSet_allPairs h1
          exact ⟨hp, hsub t (List.mem_cons_self _ _)⟩
    exact hgen (extractTaskToolUseIds p.2) (fun t ht => ht) _ h

theorem resolvePass_taskMap_wf (msgs : List ClaudeStreamMessage) :
    ∀ kv ∈ (resolvePass msgs).taskToolUseMap, resolverPairWF msgs kv := by
  unfold resolvePass
  have hstep : ∀ (st : ResolverState) (p : Nat × ClaudeStreamMessage),
      p ∈ enumFrom 0 msgs →
      (∀ kv ∈ st.taskToolUseMap, resolverPairWF msgs kv) →
      ∀ kv ∈ (resolveStep st p).taskToolUseMap, resolverPairWF msgs kv := by
    intro st p hp hinv
    rcases p with ⟨i, m⟩
    have hget : msgs.get? i = some m := by
      have h2 := mem_enumFrom.mp hp
      simpa using h2.2
    exact resolveStep_taskMap_inv msgs (i, m) hget st hinv
  exact foldl_inv_mem resolveStep
    (fun st => ∀ kv ∈ st.taskToolUseMap, resolverPairWF msgs kv)
    (enumFrom 0 msgs) hstep ⟨[], [], []⟩ (fun kv hkv => by cases hkv)

theorem collectSubagent_mem {msgs : List ClaudeStreamMessage}
    {taskId : String} {taskIdx : Nat} {q : Nat × ClaudeStreamMessage} :
    q ∈ collectSubagent msgs taskId taskIdx ↔
      taskIdx < q.1 ∧ getParentToolUseId q.2 = some taskId ∧
        msgs.get? q.1 = some q.2 := by
  unfold collectSubagent
  rcases q with ⟨i, m⟩
  rw [List.mem_filter, mem_enumFrom]
  simp only [Bool.and_eq_true, decide_eq_true_eq, beq_iff_eq, Nat.sub_zero,
    Nat.zero_le, true_and]
  tauto

theorem collectSubagent_fst_pairwise (msgs : List ClaudeStreamMessage)
    (taskId : String) (taskIdx : Nat) :
    ((collectSubagent msgs taskId taskIdx).map Prod.fst).Pairwise (· < ·) := by
  have hsub : List.Sublist ((collectSubagent msgs taskId taskIdx).map Prod.fst)
      ((enumFrom 0 msgs).map Prod.fst) :=
    (List.filter_sublist _).map _
  exact (pairwise_lt_enumFrom_fst 0 msgs).sublist hsub

/-- Well-formedness of an entry of the materialized-groups map: both id
fields equal the key, the members are exactly the collection loop's
result and are nonempty, `endIndex` is the running maximum, the stored
task message sits at `startIndex`, and the key is one of its task ids. -/
def groupWF (msgs : List ClaudeStreamMessage)
    (kv : String × SubagentGroup) : Prop :=
  kv.2.id = kv.1 ∧ kv.2.taskToolUseId = kv.1 ∧
  kv.2.subagentMessages = collectSubagent msgs kv.1 kv.2.startIndex ∧
  kv.2.subagentMessages ≠ [] ∧
  kv.2.endIndex =
    kv.2.subagentMessages.foldl (fun a q => max a q.1) kv.2.startIndex ∧
  msgs.get? kv.2.startIndex = some kv.2.taskMessage ∧
  kv.1 ∈ extractTaskToolUseIds kv.2.taskMessage

theorem buildSubagentGroups_wf (msgs : List ClaudeStreamMessage)
    (st : ResolverState)
    (hst : ∀ kv ∈ st.taskToolUseMap, resolverPairWF msgs kv) :
    ∀ kv ∈ buildSubagentGroups msgs st, groupWF msgs kv := by
  unfold buildSubagentGroups
  have hstep : ∀ (acc : List (String × SubagentGroup))
      (kv0 : String × TaskInfo), kv0 ∈ st.taskToolUseMap →
      (∀ kv ∈ acc, groupWF msgs kv) →
      ∀ kv ∈ (fun acc kv =>
        let taskId := kv.1
        let taskInfo := kv.2
        let subMsgs := collectSubagent msgs taskId taskInfo.index
        let maxIndex := subMsgs.foldl (fun a p => max a p.1) taskInfo.index
        if subMsgs.isEmpty then acc
        else
          mapSet acc taskId
            ⟨taskId, taskInfo.message, taskId, subMsgs, taskInfo.index,
              maxIndex, mapGet st.taskSubagentTypes taskId⟩) acc kv0,
        groupWF msgs kv := by
    intro acc kv0 hkv0 hinv
    simp only []
    by_cases he : (collectSubagent msgs kv0.1 kv0.2.index).isEmpty
    · rw [if_pos he]
      exact hinv
    · rw [if_neg he]
      apply mapSet_allPairs hinv
      rcases hst kv0 hkv0 with ⟨hget, hid⟩
      refine ⟨rfl, rfl, rfl, ?_, rfl, hget, hid⟩
      show collectSubagent msgs kv0.1 kv0.2.index ≠ []
      intro hcon
      rw [hcon] at he
      exact he rfl
  exact foldl_inv_mem _ (fun acc => ∀ kv ∈ acc, groupWF msgs kv)
    st.taskToolUseMap hstep [] (fun kv hkv => by cases hkv)

/-- Invariant of the third pass's fold state: the ids of the emitted
subagent entries are exactly the `addedTaskGroups` list, without
duplicates, and every emitted entry is looked up from the groups map. -/
def interInv (groups : List (String × SubagentGroup))
    (acc : List IGroup × List String) : Prop :=
  (subagentsOfI acc.1).map SubagentGroup.id = acc.2 ∧ acc.2.Nodup ∧
    ∀ g ∈ subagentsOfI acc.1, mapGet groups g.id = some g

theorem interInnerStep_inv (groups : List (String × SubagentGroup))
    (hkey : ∀ kv ∈ groups, kv.2.id = kv.1) (acc : List IGroup × List String)
    (t : String) (h : interInv groups acc) :
    interInv groups (interInnerStep groups acc t) := by
  unfold interInnerStep
  cases hg : mapGet groups t with
  | none => exact h
  | some g =>
      show interInv groups
        (if acc.2.contains t then acc
         else (acc.1 ++ [IGroup.subagent g], acc.2 ++ [t]))
      by_cases hc : acc.2.contains t
      · rw [if_pos hc]
        exact h
      · rw [if_neg hc]
        rcases h with ⟨h1, h2, h3⟩
        have hid : g.id = t := hkey (t, g) (mapGet_mem hg)
        have hnm : t ∉ acc.2 := by
          intro hmem
          exact hc (List.elem_iff.mpr hmem)
        refine ⟨?_, ?_, ?_⟩
        · rw [subagentsOfI_append, List.map_append, h1]
          simp [subagentsOfI, hid]
        · simp [List.nodup_append, h2, hnm]
        · intro g2 hg2
          rw [subagentsOfI_append] at hg2
          rcases List.mem_append.mp hg2 with hh | hh
          · exact h3 g2 hh
          · simp only [subagentsOfI, List.mem_singleton] at hh
            subst hh
            rw [hid]
            exact hg

theorem innerFold_inv (groups : List (String × SubagentGroup))
    (hkey : ∀ kv ∈ groups, kv.2.id = kv.1) (tids : List String) :
    ∀ acc, interInv groups acc →
      interInv groups (tids.foldl (interInnerStep groups) acc) := by
  induction tids with
  | nil => intro acc h; exact h
  | cons t ts ih =>
      intro acc h
      rw [List.foldl_cons]
      exact ih _ (interInnerStep_inv groups hkey acc t h)

theorem interStep_inv (st : ResolverState)
    (groups : List (String × SubagentGroup))
    (hkey : ∀ kv ∈ groups, kv.2.id = kv.1) (acc : List IGroup × List String)
    (p : Nat × ClaudeStreamMessage) (h : interInv groups acc) :
    interInv groups (interStep st groups acc p) := by
  have hnorm : ∀ (a : List IGroup × List String), interInv groups a →
      interInv groups (a.1 ++ [IGroup.normal p.2 p.1], a.2) := by
    intro a ⟨h1, h2, h3⟩
    refine ⟨?_, h2, ?_⟩
    · rw [subagentsOfI_append]
      simp [subagentsOfI, h1]
    · intro g hg
      rw [subagentsOfI_append] at hg
      rcases List.mem_append.mp hg with hh | hh
      · exact h3 g hh
      · simp [subagentsOfI] at hh
  unfold interStep
  by_cases hp : isProcessed groups p.2
  · rw [if_pos hp]
    exact h
  · rw [if_neg hp]
    generalize mapGet st.indexToTaskIds p.1 = o
    cases o with
    | none => exact hnorm acc h
    | some tids =>
        show interInv groups
          (if tids.isEmpty then (acc.1 ++ [IGroup.normal p.2 p.1], acc.2)
           else
             let acc1 := tids.foldl (interInnerStep groups) acc
             if tids.any (fun tid => mapHas groups tid) then acc1
             else (acc1.1 ++ [IGroup.normal p.2 p.1], acc1.2))
        by_cases he : tids.isEmpty
        · rw [if_pos he]
          exact hnorm acc h
        · rw [if_neg he]
          have hinner := innerFold_inv groups hkey tids acc h
          by_cases ha : tids.any (fun tid => mapHas groups tid)
          · rw [if_pos ha]
            exact hinner
          · rw [if_neg ha]
            exact hnorm _ hinner

theorem buildIntermediate_inv (msgs : List ClaudeStreamMessage)
    (st : ResolverState) (groups : List (String × SubagentGroup))
    (hkey : ∀ kv ∈ groups, kv.2.id = kv.1) :
    ((subagentsOfI (buildIntermediate msgs st groups)).map
        SubagentGroup.id).Nodup ∧
      ∀ g ∈ subagentsOfI (buildIntermediate msgs st groups),
        mapGet groups g.id = some g := by
  have hfin : interInv groups
      ((enumFrom 0 msgs).foldl (interStep st groups) ([], [])) := by
    refine foldl_inv_mem (interStep st groups) (interInv groups)
      (enumFrom 0 msgs) ?_ ([], []) ?_
    · intro s a _ hs
      exact interStep_inv st groups hkey s a hs
    · exact ⟨rfl, List.nodup_nil, fun g hg => by cases hg⟩
  rcases hfin with ⟨h1, h2, h3⟩
  constructor
  · rw [show buildIntermediate msgs st groups =
      ((enumFrom 0 msgs).foldl (interStep st groups) ([], [])).1 from rfl, h1]
    exact h2
  · exact h3

theorem subagentsOfM_groupMessages (msgs : List ClaudeStreamMessage) :
    subagentsOfM (groupMessages msgs) =
      subagentsOfI (buildIntermediate msgs (resolvePass msgs)
        (buildSubagentGroups msgs (resolvePass msgs))) := by
  show subagentsOfM (aggLoop (buildIntermediate msgs (resolvePass msgs)
    (buildSubagentGroups msgs (resolvePass msgs))) none) = _
  rw [(aggLoop_spec _).1, subagentsOfM_aggSpec]

/-- Every subagent entry of the final output is a well-formed entry of
the materialized-groups map. -/
theorem subagentsOfM_shape (msgs : List ClaudeStreamMessage) :
    ∀ g ∈ subagentsOfM (groupMessages msgs), groupWF msgs (g.id, g) := by
  have hwf := buildSubagentGroups_wf msgs (resolvePass msgs)
    (resolvePass_taskMap_wf msgs)
  have hkey : ∀ kv ∈ buildSubagentGroups msgs (resolvePass msgs),
      kv.2.id = kv.1 := fun kv hkv => (hwf kv hkv).1
  have hinv := buildIntermediate_inv msgs (resolvePass msgs)
    (buildSubagentGroups msgs (resolvePass msgs)) hkey
  intro g hg
  rw [subagentsOfM_groupMessages msgs] at hg
  exact hwf _ (mapGet_mem (hinv.2 g hg))

/-- The ids of the emitted subagent entries are pairwise distinct. -/
theorem subagentsOfM_ids_nodup (msgs : List ClaudeStreamMessage) :
    ((subagentsOfM (groupMessages msgs)).map SubagentGroup.id).Nodup := by
  have hwf := buildSubagentGroups_wf msgs (resolvePass msgs)
    (resolvePass_taskMap_wf msgs)
  have hkey : ∀ kv ∈ buildSubagentGroups msgs (resolvePass msgs),
      kv.2.id = kv.1 := fun kv hkv => (hwf kv hkv).1
  have hinv := buildIntermediate_inv msgs (resolvePass msgs)
    (buildSubagentGroups msgs (resolvePass msgs)) hkey
  rw [subagentsOfM_groupMessages msgs]
  exact hinv.1

/-- **C9** (confirmed): every `SubagentGroup` carried by a `subagent`
entry of `groupMessages`' output satisfies: its members are strictly
ascending by original index and all lie strictly after `startIndex`;
members are nonempty; `startIndex` is the index of the stored task
message; `endIndex` is the maximum member index; emitted group ids are
pairwise distinct; and no original index belongs to the members of two
distinct emitted groups. -/
theorem subagent_group_invariants (msgs : List ClaudeStreamMessage) :
    ((subagentsOfM (groupMessages msgs)).map SubagentGroup.id).Nodup ∧
    (∀ g ∈ subagentsOfM (groupMessages msgs),
      (g.subagentMessages.map Prod.fst).Pairwise (· < ·) ∧
      (∀ q ∈ g.subagentMessages, g.startIndex < q.1) ∧
      g.subagentMessages ≠ [] ∧
      msgs.get? g.startIndex = some g.taskMessage ∧
      (∀ q ∈ g.subagentMessages, q.1 ≤ g.endIndex) ∧
      g.endIndex ∈ g.subagentMessages.map Prod.fst) ∧
    (∀ g ∈ subagentsOfM (groupMessages msgs),
      ∀ g2 ∈ subagentsOfM (groupMessages msgs),
      ∀ i, i ∈ g.subagentMessages.map Prod.fst →
        i ∈ g2.subagentMessages.map Prod.fst → g = g2) := by
  have hshape := subagentsOfM_shape msgs
  have hnodup := subagentsOfM_ids_nodup msgs
  refine ⟨hnodup, ?_, ?_⟩
  · intro g hg
    rcases hshape g hg with ⟨_, _, hcoll, hne, hend, hmsg, _⟩
    have hfold : g.endIndex =
        (g.subagentMessages.map Prod.fst).foldl max g.startIndex := by
      rw [hend, List.foldl_map]
    have hlt : ∀ q ∈ g.subagentMessages, g.startIndex < q.1 := by
      intro q hq
      rw [hcoll] at hq
      exact (collectSubagent_mem.mp hq).1
    refine ⟨?_, hlt, hne, hmsg, ?_, ?_⟩
    · rw [hcoll]
      exact collectSubagent_fst_pairwise msgs g.id g.startIndex
    · intro q hq
      rw [hfold]
      exact foldl_max_ge_mem _ _ q.1 (List.mem_map.mpr ⟨q, hq, rfl⟩)
    · rcases foldl_max_mem_or_init (g.subagentMessages.map Prod.fst)
        g.startIndex with h | h
      · rcases List.exists_mem_of_ne_nil _ hne with ⟨q, hq⟩
        have h1 := foldl_max_ge_mem (g.subagentMessages.map Prod.fst)
          g.startIndex q.1 (List.mem_map.mpr ⟨q, hq, rfl⟩)
        rw [h] at h1
        have h2 := hlt q hq
        omega
      · rw [hfold]
        exact h
  · intro g hg g2 hg2 i hi hi2
    rcases hshape g hg with ⟨_, _, hcoll, _, _, _, _⟩
    rcases hshape g2 hg2 with ⟨_, _, hcoll2, _, _, _, _⟩
    rcases List.mem_map.mp hi with ⟨q, hq, hq1⟩
    rcases List.mem_map.mp hi2 with ⟨q2, hq2, hq21⟩
    rw [hcoll] at hq
    rw [hcoll2] at hq2
    rcases collectSubagent_mem.mp hq with ⟨_, hpar, hgetq⟩
    rcases collectSubagent_mem.mp hq2 with ⟨_, hpar2, hgetq2⟩
    have hq12 : q2.1 = q.1 := by rw [hq1, hq21]
    rw [hq12, hgetq] at hgetq2
    have hmsame : q.2 = q2.2 := Option.some.inj hgetq2
    rw [← hmsame] at hpar2
    rw [hpar] at hpar2
    have hid : g.id = g2.id := Option.some.inj hpar2
    exact List.inj_on_of_nodup_map hnodup hg hg2 hid

/-! ## Ordering of the retained messages (C5) -/

theorem flattenNA_eq_naPairs (out : List MessageGroup) :
    flattenNA out = (naPairs out).map Prod.fst := by
  unfold flattenNA
  induction out with
  | nil => rfl
  | cons g rest ih =>
      cases g <;> simp [naPairs, naIdxs, ih]

theorem naPairs_groupMessages (msgs : List ClaudeStreamMessage) :
    naPairs (groupMessages msgs) =
      (enumFrom 0 msgs).filter (fun p =>
        emitsNormal (resolvePass msgs)
          (buildSubagentGroups msgs (resolvePass msgs)) p.1 p.2) := by
  show naPairs (aggLoop (buildIntermediate msgs (resolvePass msgs)
    (buildSubagentGroups msgs (resolvePass msgs))) none) = _
  rw [(aggLoop_spec _).1, naPairs_aggSpec, buildIntermediate_normals]

theorem flattenNA_pairwise (msgs : List ClaudeStreamMessage) :
    (flattenNA (groupMessages msgs)).Pairwise (· < ·) := by
  rw [flattenNA_eq_naPairs, naPairs_groupMessages]
  have hsub : List.Sublist
      (((enumFrom 0 msgs).filter (fun p =>
        emitsNormal (resolvePass msgs)
          (buildSubagentGroups msgs (resolvePass msgs)) p.1 p.2)).map Prod.fst)
      ((enumFrom 0 msgs).map Prod.fst) :=
    (List.filter_sublist _).map _
  exact (pairwise_lt_enumFrom_fst 0 msgs).sublist hsub

/-- **C5** (counterexample): with two interleaved subagent groups the
flattened first-appearance order of `groupMessages`' output is
`[0, 2, 5, 1, 3, 4]` — index 5 (a member of the first group) appears
before index 1 (the second group's task message), so the claimed
end-to-end order preservation fails. -/
theorem order_preservation_cex :
    flattenAll (groupMessages exInterleaved) = [0, 2, 5, 1, 3, 4] ∧
      ¬ (flattenAll (groupMessages exInterleaved)).Pairwise (· < ·) := by
  constructor
  · decide
  · decide

/-- **C5** (amended): order preservation holds (a) globally across all
`Normal` payloads and `Aggregated` members — their flattened index
sequence is strictly ascending — and (b) inside every `Subagent` entry,
whose task index precedes its strictly ascending member indices. Across
distinct subagent groups first-appearance order can violate index order
when groups interleave (see the counterexample). -/
theorem order_preservation_amended (msgs : List ClaudeStreamMessage) :
    (flattenNA (groupMessages msgs)).Pairwise (· < ·) ∧
    ∀ g ∈ subagentsOfM (groupMessages msgs),
      (g.startIndex :: g.subagentMessages.map Prod.fst).Pairwise (· < ·) := by
  refine ⟨flattenNA_pairwise msgs, ?_⟩
  intro g hg
  rcases subagentsOfM_shape msgs g hg with ⟨_, _, hcoll, _, _, _, _⟩
  rw [List.pairwise_cons]
  constructor
  · intro j hj
    rcases List.mem_map.mp hj with ⟨q, hq, hq1⟩
    rw [hcoll] at hq
    rw [← hq1]
    exact (collectSubagent_mem.mp hq).1
  · rw [hcoll]
    exact collectSubagent_fst_pairwise msgs g.id g.startIndex

/-! ## Lookup lemmas for the association-list maps -/

theorem mapGet_cons_hit {α β : Type} [BEq α] (p : α × β) (ps : List (α × β))
    (k : α) (h : (p.1 == k) = true) : mapGet (p :: ps) k = some p.2 := by
  simp [mapGet, List.find?, h]

theorem mapGet_cons_miss {α β : Type} [BEq α] (p : α × β) (ps : List (α × β))
    (k : α) (h : (p.1 == k) = false) : mapGet (p :: ps) k = mapGet ps k := by
  simp [mapGet, List.find?, h]

theorem mapGet_map_update_self {α β : Type} [BEq α] [LawfulBEq α]
    (m : List (α × β)) (k : α) (v : β)
    (h : m.any (fun p => p.1 == k) = true) :
    mapGet (m.map (fun p => if p.1 == k then (k, v) else p)) k = some v := by
  induction m with
  | nil => cases h
  | cons p ps ih =>
      rw [List.map_cons]
      by_cases hpk : (p.1 == k) = true
      · rw [if_pos hpk]
        exact mapGet_cons_hit (k, v) _ k (by simp)
      · rw [if_neg hpk]
        have hpk2 : (p.1 == k) = false := by simpa using hpk
        have hps : ps.any (fun p => p.1 == k) = true := by
          rw [List.any_cons, hpk2, Bool.false_or] at h
          exact h
        rw [mapGet_cons_miss p _ k hpk2]
        exact ih hps

theorem mapGet_append_single_self {α β : Type} [BEq α] [LawfulBEq α]
    (m : List (α × β)) (k : α) (v : β)
    (h : m.any (fun p => p.1 == k) = false) :
    mapGet (m ++ [(k, v)]) k = some v := by
  induction m with
  | nil =>
      rw [List.nil_append]
      exact mapGet_cons_hit (k, v) [] k (by simp)
  | cons p ps ih =>
      rw [List.cons_append, List.any_cons] at *
      have hpk : (p.1 == k) = false := (Bool.or_eq_false_iff.mp h).1
      rw [mapGet_cons_miss p _ k hpk]
      exact ih (Bool.or_eq_false_iff.mp h).2

theorem mapGet_mapSet_self {α β : Type} [BEq α] [LawfulBEq α]
    (m : List (α × β)) (k : α) (v : β) :
    mapGet (mapSet m k v) k = some v := by
  unfold mapSet
  by_cases h : m.any (fun p => p.1 == k)
  · rw [if_pos h]
    exact mapGet_map_update_self m k v h
  · rw [if_neg h]
    have h2 : m.any (fun p => p.1 == k) = false := by
      cases hc : m.any (fun p => p.1 == k) with
      | false => rfl
      | true => exact absurd hc h
    exact mapGet_append_single_self m k v h2

theorem mapGet_map_update {α β : Type} [BEq α] [LawfulBEq α]
    (m : List (α × β)) (k j : α) (v : β) (hne : j ≠ k) :
    mapGet (m.map (fun p => if p.1 == k then (k, v) else p)) j =
      mapGet m j := by
  induction m with
  | nil => rfl
  | cons p ps ih =>
      rw [List.map_cons]
      by_cases hpk : (p.1 == k) = true
      · rw [if_pos hpk]
        have hp : p.1 = k := by simpa using hpk
        have hkj : ((k, v).1 == j) = false := by
          simp only [beq_eq_false_iff_ne]
          exact fun hc => hne hc.symm
        have hpj : (p.1 == j) = false := by
          simp only [beq_eq_false_iff_ne, hp]
          exact fun hc => hne hc.symm
        rw [mapGet_cons_miss _ _ j hkj, ih, mapGet_cons_miss p _ j hpj]
      · rw [if_neg hpk]
        by_cases hpj : (p.1 == j) = true
        · rw [mapGet_cons_hit _ _ j hpj, mapGet_cons_hit p _ j hpj]
        · have hpj2 : (p.1 == j) = false := by
            simpa using hpj
          rw [mapGet_cons_miss _ _ j hpj2, ih, mapGet_cons_miss p _ j hpj2]

theorem mapGet_append_single_ne {α β : Type} [BEq α] [LawfulBEq α]
    (m : List (α × β)) (k j : α) (v : β) (hne : j ≠ k) :
    mapGet (m ++ [(k, v)]) j = mapGet m j := by
  induction m with
  | nil =>
      rw [List.nil_append]
      have hkj : ((k, v).1 == j) = false := by
        simp only [beq_eq_false_iff_ne]
        exact fun hc => hne hc.symm
      rw [mapGet_cons_miss _ _ j hkj]
  | cons p ps ih =>
      rw [List.cons_append]
      by_cases hpj : (p.1 == j) = true
      · rw [mapGet_cons_hit _ _ j hpj, mapGet_cons_hit p _ j hpj]
      · have hpj2 : (p.1 == j) = false := by simpa using hpj
        rw [mapGet_cons_miss _ _ j hpj2, ih, mapGet_cons_miss p _ j hpj2]

theorem mapGet_mapSet_ne {α β : Type} [BEq α] [LawfulBEq α]
    (m : List (α × β)) (k j : α) (v : β) (hne : j ≠ k) :
    mapGet (mapSet m k v) j = mapGet m j := by
  unfold mapSet
  by_cases h : m.any (fun p => p.1 == k)
  · rw [if_pos h]
    exact mapGet_map_update m k j v hne
  · rw [if_neg h]
    exact mapGet_append_single_ne m k j v hne

theorem mapHas_eq_isSome {α β : Type} [BEq α] (m : List (α × β)) (k : α) :
    mapHas m k = (mapGet m k).isSome := by
  induction m with
  | nil => rfl
  | cons p ps ih =>
      by_cases hp : (p.1 == k) = true
      · rw [mapGet_cons_hit p ps k hp]
        simp [mapHas, List.any_cons, hp]
      · have hp2 : (p.1 == k) = false := by simpa using hp
        rw [mapGet_cons_miss p ps k hp2, ← ih]
        simp [mapHas, List.any_cons, hp2]

theorem mapHas_mapSet_ne {α β : Type} [BEq α] [LawfulBEq α]
    (m : List (α × β)) (k j : α) (v : β) (hne : j ≠ k) :
    mapHas (mapSet m k v) j = mapHas m j := by
  rw [mapHas_eq_isSome, mapHas_eq_isSome, mapGet_mapSet_ne m k j v hne]

theorem mapGet_eq_none_of_has_false {α β : Type} [BEq α]
    {m : List (α × β)} {k : α} (h : mapHas m k = false) :
    mapGet m k = none := by
  unfold mapGet
  have hall : ∀ x ∈ m, ¬ ((fun p => p.1 == k) x = true) := by
    intro x hx hc
    have h2 : mapHas m k = true := List.any_eq_true.mpr ⟨x, hx, hc⟩
    rw [h] at h2
    cases h2
  rw [List.find?_eq_none.mpr hall]
  rfl

theorem mapHas_of_get {α β : Type} [BEq α] {m : List (α × β)} {k : α}
    {v : β} (h : mapGet m k = some v) : mapHas m k = true := by
  rw [mapHas_eq_isSome, h]
  rfl

theorem enumFrom_fst_nodup {α : Type} (k : Nat) (l : List α) :
    ((enumFrom k l).map Prod.fst).Nodup :=
  (pairwise_lt_enumFrom_fst k l).imp (fun h => Nat.ne_of_lt h)

theorem resolveInnerStep_indexMap (message : ClaudeStreamMessage)
    (index : Nat) (details : List (String × Option String))
    (st : ResolverState) (t : String) :
    (resolveInnerStep message index details st t).indexToTaskIds =
      st.indexToTaskIds := by
  unfold resolveInnerStep
  cases h : mapGet details t with
  | none => rfl
  | some o =>
      cases o with
      | none => rfl
      | some ty => by_cases hty : ty == "" <;> simp [hty]

theorem resolveInnerFold_indexMap (message : ClaudeStreamMessage)
    (index : Nat) (details : List (String × Option String))
    (tids : List String) :
    ∀ st, ((tids.foldl (resolveInnerStep message index details)
      st).indexToTaskIds) = st.indexToTaskIds := by
  induction tids with
  | nil => intro st; rfl
  | cons t ts ih =>
      intro st
      rw [List.foldl_cons, ih, resolveInnerStep_indexMap]

theorem resolveStep_indexMap (st : ResolverState)
    (q : Nat × ClaudeStreamMessage) :
    (resolveStep st q).indexToTaskIds =
      if (extractTaskToolUseIds q.2).isEmpty then st.indexToTaskIds
      else mapSet st.indexToTaskIds q.1 (extractTaskToolUseIds q.2) := by
  simp only [resolveStep]
  by_cases he : (extractTaskToolUseIds q.2).isEmpty
  · rw [if_pos he, if_pos he]
  · rw [if_neg he, if_neg he, resolveInnerFold_indexMap]

theorem resolveFold_indexMap_absent (ps : List (Nat × ClaudeStreamMessage)) :
    ∀ (st : ResolverState) (j : Nat), (∀ q ∈ ps, q.1 ≠ j) →
      mapGet ((ps.foldl resolveStep st).indexToTaskIds) j =
        mapGet st.indexToTaskIds j := by
  induction ps with
  | nil => intro st j _; rfl
  | cons q ps ih =>
      intro st j hne
      rw [List.foldl_cons,
        ih _ j (fun q2 hq2 => hne q2 (List.mem_cons_of_mem _ hq2)),
        resolveStep_indexMap]
      by_cases he : (extractTaskToolUseIds q.2).isEmpty
      · rw [if_pos he]
      · rw [if_neg he,
          mapGet_mapSet_ne _ _ _ _ (hne q (List.mem_cons_self _ _)).symm]

theorem resolveFold_indexMap_present (ps : List (Nat × ClaudeStreamMessage)) :
    ∀ (st : ResolverState) (j : Nat) (m : ClaudeStreamMessage),
      (j, m) ∈ ps → (ps.map Prod.fst).Nodup →
      (extractTaskToolUseIds m).isEmpty = false →
      mapGet ((ps.foldl resolveStep st).indexToTaskIds) j =
        some (extractTaskToolUseIds m) := by
  induction ps with
  | nil => intro st j m h; cases h
  | cons q ps ih =>
      intro st j m hmem hnd hne
      rw [List.foldl_cons]
      rcases List.mem_cons.mp hmem with h | h
      · cases h.symm
        have habs : ∀ q2 ∈ ps, q2.1 ≠ j := by
          intro q2 hq2 hc
          rw [List.map_cons] at hnd
          have h1 := (List.nodup_cons.mp hnd).1
          have h2 : q2.1 ∈ ps.map Prod.fst :=
            List.mem_map_of_mem Prod.fst hq2
          rw [hc] at h2
          exact h1 h2
        rw [resolveFold_indexMap_absent ps _ j habs, resolveStep_indexMap]
        rw [if_neg (by rw [hne]; exact Bool.false_ne_true), mapGet_mapSet_self]
      · rw [List.map_cons] at hnd
        exact ih _ j m h (List.nodup_cons.mp hnd).2 hne

theorem buildSubagentGroups_not_has (msgs : List ClaudeStreamMessage)
    (st : ResolverState) (t : String)
    (hno : ∀ q : Nat × ClaudeStreamMessage, msgs.get? q.1 = some q.2 →
      getParentToolUseId q.2 ≠ some t) :
    mapHas (buildSubagentGroups msgs st) t = false := by
  unfold buildSubagentGroups
  refine foldl_inv_mem _ (fun acc => mapHas acc t = false)
    st.taskToolUseMap ?_ [] rfl
  intro acc kv _ hacc
  simp only []
  by_cases he : (collectSubagent msgs kv.1 kv.2.index).isEmpty
  · rw [if_pos he]
    exact hacc
  · rw [if_neg he]
    by_cases hkt : t = kv.1
    · exfalso
      have hex : ∃ q, q ∈ collectSubagent msgs kv.1 kv.2.index := by
        apply List.exists_mem_of_ne_nil
        intro hc
        rw [hc] at he
        exact he rfl
      rcases hex with ⟨q, hq⟩
      rcases collectSubagent_mem.mp hq with ⟨_, hpar, hget⟩
      rw [hkt] at hno
      exact hno q hget hpar
    · rw [mapHas_mapSet_ne _ _ _ _ hkt]
      exact hacc

theorem aggMembersOfM_groupMessages (msgs : List ClaudeStreamMessage) :
    aggMembersOfM (groupMessages msgs) =
      ((enumFrom 0 msgs).filter (fun p =>
        emitsNormal (resolvePass msgs)
          (buildSubagentGroups msgs (resolvePass msgs)) p.1 p.2)).filter
        (fun p => isTechnicalMessage p.2) := by
  show aggMembersOfM (aggLoop (buildIntermediate msgs (resolvePass msgs)
    (buildSubagentGroups msgs (resolvePass msgs))) none) = _
  rw [(aggLoop_spec _).1, aggMembers_aggSpec, buildIntermediate_normals]

theorem normalEntriesOfM_groupMessages (msgs : List ClaudeStreamMessage) :
    normalEntriesOfM (groupMessages msgs) =
      ((enumFrom 0 msgs).filter (fun p =>
        emitsNormal (resolvePass msgs)
          (buildSubagentGroups msgs (resolvePass msgs)) p.1 p.2)).filter
        (fun p => !isTechnicalMessage p.2) := by
  show normalEntriesOfM (aggLoop (buildIntermediate msgs (resolvePass msgs)
    (buildSubagentGroups msgs (resolvePass msgs))) none) = _
  rw [(aggLoop_spec _).1, normalEntries_aggSpec, buildIntermediate_normals]

theorem emitsNormal_of_unmatched (msgs : List ClaudeStreamMessage) (i : Nat)
    (m : ClaudeStreamMessage) (hget : msgs.get? i = some m)
    (hpar : getParentToolUseId m = none)
    (htids : extractTaskToolUseIds m ≠ [])
    (hhas : ∀ t ∈ extractTaskToolUseIds m,
      mapHas (buildSubagentGroups msgs (resolvePass msgs)) t = false) :
    emitsNormal (resolvePass msgs)
      (buildSubagentGroups msgs (resolvePass msgs)) i m = true := by
  unfold emitsNormal
  have hproc : isProcessed (buildSubagentGroups msgs (resolvePass msgs)) m
      = false := by
    unfold isProcessed
    rw [hpar]
  have hEmpty : (extractTaskToolUseIds m).isEmpty = false := by
    cases hc : (extractTaskToolUseIds m).isEmpty with
    | false => rfl
    | true => exact absurd (List.isEmpty_iff.mp hc) htids
  have hidx : mapGet (resolvePass msgs).indexToTaskIds i =
      some (extractTaskToolUseIds m) := by
    unfold resolvePass
    apply resolveFold_indexMap_present
    · exact mem_enumFrom.mpr ⟨Nat.zero_le i, by simpa using hget⟩
    · exact enumFrom_fst_nodup 0 msgs
    · exact hEmpty
  simp only [hproc, Bool.false_eq_true, if_false]
  rw [hidx]
  show (if (extractTaskToolUseIds m).isEmpty then true
        else !((extractTaskToolUseIds m).any fun tid =>
          mapHas (buildSubagentGroups msgs (resolvePass msgs)) tid)) = true
  rw [if_neg (by rw [hEmpty]; exact Bool.false_ne_true)]
  cases hc : (extractTaskToolUseIds m).any (fun tid =>
      mapHas (buildSubagentGroups msgs (resolvePass msgs)) tid) with
  | false => rfl
  | true =>
      rcases List.any_eq_true.mp hc with ⟨t, ht, htt⟩
      rw [hhas t ht] at htt
      cases htt

/-- **C2** (counterexample): a lone task invocation with zero matching
messages produces no group, but — being a technical message — it lands
inside an `Aggregated` entry of the final output, not in a `Normal`
entry, as the claim requires. -/
theorem ungrouped_task_invocation_cex :
    groupMessages [mTask "T1"] =
      [MessageGroup.aggregated [(0, mTask "T1")] 0] := by
  decide

/-- **C2** (amended): a task invocation message (itself not parent-linked)
none of whose task ids is matched by any message's `parent_tool_use_id`
produces no `SubagentGroup` with any of its ids, and is retained
ungrouped: it appears in the final output as a `Normal` entry when it is
not a technical message, and otherwise as a member of an `Aggregated`
entry (the aggregation pass wraps bare task invocations, whose content is
all `tool_use` items, into `Aggregated` runs). -/
theorem ungrouped_task_invocation (msgs : List ClaudeStreamMessage)
    (i : Nat) (m : ClaudeStreamMessage) (hget : msgs.get? i = some m)
    (hpar : getParentToolUseId m = none)
    (htids : extractTaskToolUseIds m ≠ [])
    (hno : ∀ j mj, msgs.get? j = some mj →
      ∀ t ∈ extractTaskToolUseIds m, getParentToolUseId mj ≠ some t) :
    (∀ t ∈ extractTaskToolUseIds m,
      ∀ g ∈ subagentsOfM (groupMessages msgs), g.id ≠ t) ∧
    (if isTechnicalMessage m then
        ∃ ms k, MessageGroup.aggregated ms k ∈ groupMessages msgs ∧
          (i, m) ∈ ms
      else MessageGroup.normal m i ∈ groupMessages msgs) := by
  have hhas : ∀ t ∈ extractTaskToolUseIds m,
      mapHas (buildSubagentGroups msgs (resolvePass msgs)) t = false := by
    intro t ht
    apply buildSubagentGroups_not_has
    intro q hq
    exact hno q.1 q.2 hq t ht
  have hemit := emitsNormal_of_unmatched msgs i m hget hpar htids hhas
  constructor
  · intro t ht g hg hcon
    have hwf := buildSubagentGroups_wf msgs (resolvePass msgs)
      (resolvePass_taskMap_wf msgs)
    have hkey : ∀ kv ∈ buildSubagentGroups msgs (resolvePass msgs),
        kv.2.id = kv.1 := fun kv hkv => (hwf kv hkv).1
    have hinv := buildIntermediate_inv msgs (resolvePass msgs)
      (buildSubagentGroups msgs (resolvePass msgs)) hkey
    rw [subagentsOfM_groupMessages msgs] at hg
    have hgot := hinv.2 g hg
    rw [hcon] at hgot
    have h1 := mapHas_of_get hgot
    rw [hhas t ht] at h1
    cases h1
  · have hmemf : (i, m) ∈ (enumFrom 0 msgs).filter (fun p =>
        emitsNormal (resolvePass msgs)
          (buildSubagentGroups msgs (resolvePass msgs)) p.1 p.2) := by
      apply List.mem_filter.mpr
      constructor
      · exact mem_enumFrom.mpr ⟨Nat.zero_le i, by simpa using hget⟩
      · exact hemit
    cases ht : isTechnicalMessage m with
    | true =>
        simp only [if_true]
        apply mem_aggMembersOfM.mp
        rw [aggMembersOfM_groupMessages]
        exact List.mem_filter.mpr ⟨hmemf, ht⟩
    | false =>
        simp only [Bool.false_eq_true, if_false]
        apply mem_normalEntriesOfM.mp
        rw [normalEntriesOfM_groupMessages]
        refine List.mem_filter.mpr ⟨hmemf, ?_⟩
        rw [ht]
        rfl

/-- Witness for `ungrouped_task_invocation` at the concrete one-message
input `[mTask "T1"]`. -/
theorem ungrouped_task_invocation_witness :
    (∀ t ∈ extractTaskToolUseIds (mTask "T1"),
      ∀ g ∈ subagentsOfM (groupMessages [mTask "T1"]), g.id ≠ t) ∧
    (if isTechnicalMessage (mTask "T1") then
        ∃ ms k, MessageGroup.aggregated ms k ∈ groupMessages [mTask "T1"] ∧
          (0, mTask "T1") ∈ ms
      else MessageGroup.normal (mTask "T1") 0 ∈ groupMessages [mTask "T1"]) :=
  ungrouped_task_invocation [mTask "T1"] 0 (mTask "T1") rfl rfl (by decide)
    (by
      intro j mj hj t ht hcon
      match j with
      | 0 =>
          rw [show mj = mTask "T1" from (Option.some.inj hj).symm] at hcon
          exact Option.noConfusion hcon
      | Nat.succ n =>
          rw [show ([mTask "T1"] : List ClaudeStreamMessage).get? (n + 1) =
            none from rfl] at hj
          cases hj)

/-! ## Exactly-once coverage (C1) -/

theorem flattenMembers_eq (out : List MessageGroup) :
    flattenMembers out = (subagentsOfM out).flatMap
      (fun g => g.subagentMessages.map Prod.fst) := by
  unfold flattenMembers
  induction out with
  | nil => rfl
  | cons g rest ih =>
      cases g <;> simp [subagentsOfM, memberIdxs, ih]

theorem flattenOwners_eq (out : List MessageGroup) :
    flattenOwners out = (subagentsOfM out).map SubagentGroup.startIndex := by
  unfold flattenOwners
  induction out with
  | nil => rfl
  | cons g rest ih =>
      cases g <;> simp [subagentsOfM, ownerIdxs, ih]

theorem nodup_flatMap_of {α β : Type} (l : List α) (f : α → List β)
    (hnd : ∀ a ∈ l, (f a).Nodup)
    (hdisj : l.Pairwise (fun a b => ∀ x ∈ f a, x ∉ f b)) :
    (l.flatMap f).Nodup := by
  induction l with
  | nil => simp
  | cons a as ih =>
      rw [List.flatMap_cons, List.nodup_append]
      refine ⟨hnd a (List.mem_cons_self _ _), ?_, ?_⟩
      · exact ih (fun b hb => hnd b (List.mem_cons_of_mem _ hb))
          (List.pairwise_cons.mp hdisj).2
      · intro x hx hx2
        rcases List.mem_flatMap.mp hx2 with ⟨b, hb, hxb⟩
        exact (List.pairwise_cons.mp hdisj).1 b hb x hx hxb

theorem flattenMembers_nodup (msgs : List ClaudeStreamMessage) :
    (flattenMembers (groupMessages msgs)).Nodup := by
  rw [flattenMembers_eq]
  apply nodup_flatMap_of
  · intro g hg
    rcases subagentsOfM_shape msgs g hg with ⟨_, _, hcoll, _, _, _, _⟩
    rw [hcoll]
    exact (collectSubagent_fst_pairwise msgs g.id g.startIndex).imp
      (fun h => Nat.ne_of_lt h)
  · have hids := subagentsOfM_ids_nodup msgs
    rw [List.Nodup, List.pairwise_map] at hids
    apply List.Pairwise.imp_of_mem ?_ hids
    intro g g2 hg hg2 hne x hx hx2
    rcases subagentsOfM_shape msgs g hg with ⟨_, _, hcoll, _, _, _, _⟩
    rcases subagentsOfM_shape msgs g2 hg2 with ⟨_, _, hcoll2, _, _, _, _⟩
    rcases List.mem_map.mp hx with ⟨q, hq, hq1⟩
    rcases List.mem_map.mp hx2 with ⟨q2, hq2, hq21⟩
    rw [hcoll] at hq
    rw [hcoll2] at hq2
    rcases collectSubagent_mem.mp hq with ⟨_, hpar, hget⟩
    rcases collectSubagent_mem.mp hq2 with ⟨_, hpar2, hget2⟩
    have hqq : q2.1 = q.1 := by rw [hq1, hq21]
    rw [hqq, hget] at hget2
    have hsame := Option.some.inj hget2
    rw [← hsame, hpar] at hpar2
    exact hne (Option.some.inj hpar2)

theorem interInnerStep_mono (groups : List (String × SubagentGroup))
    (acc : List IGroup × List String) (t : String) :
    ∃ e, (interInnerStep groups acc t).1 = acc.1 ++ e := by
  unfold interInnerStep
  cases hg : mapGet groups t with
  | none => exact ⟨[], by simp⟩
  | some g =>
      by_cases hc : acc.2.contains t
      · exact ⟨[], by simp [List.elem_iff.mp hc]⟩
      · exact ⟨[IGroup.subagent g],
          by simp [show t ∉ acc.2 from fun hmem => hc (List.elem_iff.mpr hmem)]⟩

theorem innerFold_mono (groups : List (String × SubagentGroup))
    (tids : List String) :
    ∀ acc, ∃ e,
      ((tids.foldl (interInnerStep groups) acc).1) = acc.1 ++ e := by
  induction tids with
  | nil => intro acc; exact ⟨[], by simp⟩
  | cons t ts ih =>
      intro acc
      rw [List.foldl_cons]
      rcases ih (interInnerStep groups acc t) with ⟨e1, he1⟩
      rcases interInnerStep_mono groups acc t with ⟨e2, he2⟩
      exact ⟨e2 ++ e1, by rw [he1, he2, List.append_assoc]⟩

theorem interStep_mono (st : ResolverState)
    (groups : List (String × SubagentGroup)) (acc : List IGroup × List String)
    (q : Nat × ClaudeStreamMessage) :
    ∃ e, (interStep st groups acc q).1 = acc.1 ++ e := by
  unfold interStep
  by_cases hp : isProcessed groups q.2
  · rw [if_pos hp]
    exact ⟨[], by simp⟩
  · rw [if_neg hp]
    generalize mapGet st.indexToTaskIds q.1 = o
    cases o with
    | none => exact ⟨[IGroup.normal q.2 q.1], rfl⟩
    | some tids =>
        show ∃ e,
          (if tids.isEmpty then (acc.1 ++ [IGroup.normal q.2 q.1], acc.2)
           else
             let acc1 := tids.foldl (interInnerStep groups) acc
             if tids.any (fun tid => mapHas groups tid) then acc1
             else (acc1.1 ++ [IGroup.normal q.2 q.1], acc1.2)).1 = acc.1 ++ e
        by_cases he : tids.isEmpty
        · rw [if_pos he]
          exact ⟨[IGroup.normal q.2 q.1], rfl⟩
        · rw [if_neg he]
          rcases innerFold_mono groups tids acc with ⟨e1, he1⟩
          by_cases ha : tids.any (fun tid => mapHas groups tid)
          · rw [if_pos ha]
            exact ⟨e1, he1⟩
          · rw [if_neg ha]
            exact ⟨e1 ++ [IGroup.normal q.2 q.1], by
              rw [he1, List.append_assoc]⟩

theorem interFold_mono (st : ResolverState)
    (groups : List (String × SubagentGroup))
    (ps : List (Nat × ClaudeStreamMessage)) :
    ∀ acc, ∃ e,
      ((ps.foldl (interStep st groups) acc).1) = acc.1 ++ e := by
  induction ps with
  | nil => intro acc; exact ⟨[], by simp⟩
  | cons q qs ih =>
      intro acc
      rw [List.foldl_cons]
      rcases ih (interStep st groups acc q) with ⟨e1, he1⟩
      rcases interStep_mono st groups acc q with ⟨e2, he2⟩
      exact ⟨e2 ++ e1, by rw [he1, he2, List.append_assoc]⟩

theorem interFold_inv (st : ResolverState)
    (groups : List (String × SubagentGroup))
    (hkey : ∀ kv ∈ groups, kv.2.id = kv.1)
    (ps : List (Nat × ClaudeStreamMessage)) :
    ∀ acc, interInv groups acc →
      interInv groups (ps.foldl (interStep st groups) acc) := by
  induction ps with
  | nil => intro acc h; exact h
  | cons q qs ih =>
      intro acc h
      rw [List.foldl_cons]
      exact ih _ (interStep_inv st groups hkey acc q h)

theorem innerFold_emits (groups : List (String × SubagentGroup))
    (hkey : ∀ kv ∈ groups, kv.2.id = kv.1) (t : String) (g : SubagentGroup)
    (hg : mapGet groups t = some g) (tids : List String) :
    ∀ acc, t ∈ tids → interInv groups acc →
      g ∈ subagentsOfI ((tids.foldl (interInnerStep groups) acc).1) := by
  induction tids with
  | nil => intro acc h; cases h
  | cons t2 ts ih =>
      intro acc hmem hinv
      rw [List.foldl_cons]
      rcases List.mem_cons.mp hmem with h | h
      · subst h
        have hstep : g ∈ subagentsOfI ((interInnerStep groups acc t).1) := by
          rw [show interInnerStep groups acc t =
              (if acc.2.contains t then acc
               else (acc.1 ++ [IGroup.subagent g], acc.2 ++ [t])) from by
            unfold interInnerStep
            rw [hg]]
          by_cases hc : acc.2.contains t
          · rw [if_pos hc]
            have ht2 : t ∈ acc.2 := List.elem_iff.mp hc
            rw [← hinv.1] at ht2
            rcases List.mem_map.mp ht2 with ⟨g2, hg2, hgid⟩
            have h3 := hinv.2.2 g2 hg2
            rw [hgid, hg] at h3
            rw [← Option.some.inj h3] at hg2
            exact hg2
          · rw [if_neg hc]
            rw [subagentsOfI_append]
            apply List.mem_append.mpr
            right
            simp [subagentsOfI]
        rcases innerFold_mono groups ts (interInnerStep groups acc t) with
          ⟨e, he⟩
        rw [he, subagentsOfI_append]
        exact List.mem_append.mpr (Or.inl hstep)
      · exact ih _ h (interInnerStep_inv groups hkey acc t2 hinv)

theorem buildIntermediate_complete (msgs : List ClaudeStreamMessage)
    (st : ResolverState) (groups : List (String × SubagentGroup))
    (hkey : ∀ kv ∈ groups, kv.2.id = kv.1)
    (hwfg : ∀ kv ∈ groups, groupWF msgs kv)
    (hunproc : ∀ kv ∈ groups, isProcessed groups kv.2.taskMessage = false)
    (hidx : ∀ kv ∈ groups, mapGet st.indexToTaskIds kv.2.startIndex =
      some (extractTaskToolUseIds kv.2.taskMessage)) :
    ∀ t g, mapGet groups t = some g →
      g ∈ subagentsOfI (buildIntermediate msgs st groups) := by
  intro t g hg
  have hmemg := mapGet_mem hg
  rcases hwfg (t, g) hmemg with ⟨hid, _, _, _, _, hgetm, hextr⟩
  have henum : (g.startIndex, g.taskMessage) ∈ enumFrom 0 msgs :=
    mem_enumFrom.mpr ⟨Nat.zero_le _, by simpa using hgetm⟩
  rcases List.append_of_mem henum with ⟨l1, l2, hsplit⟩
  unfold buildIntermediate
  rw [hsplit, List.foldl_append, List.foldl_cons]
  have hinv1 : interInv groups (l1.foldl (interStep st groups) ([], [])) :=
    interFold_inv st groups hkey l1 ([], [])
      ⟨rfl, List.nodup_nil, fun g2 hg2 => by cases hg2⟩
  have hstep : g ∈ subagentsOfI ((interStep st groups
      (l1.foldl (interStep st groups) ([], []))
      (g.startIndex, g.taskMessage)).1) ∧
      interInv groups (interStep st groups
        (l1.foldl (interStep st groups) ([], []))
        (g.startIndex, g.taskMessage)) := by
    constructor
    · unfold interStep
      rw [if_neg (by rw [hunproc (t, g) hmemg]; exact Bool.false_ne_true)]
      rw [hidx (t, g) hmemg]
      show g ∈ subagentsOfI
        ((if (extractTaskToolUseIds g.taskMessage).isEmpty then
            ((l1.foldl (interStep st groups) ([], [])).1 ++
              [IGroup.normal g.taskMessage g.startIndex],
              (l1.foldl (interStep st groups) ([], [])).2)
          else
            let acc1 := (extractTaskToolUseIds g.taskMessage).foldl
              (interInnerStep groups) (l1.foldl (interStep st groups) ([], []))
            if (extractTaskToolUseIds g.taskMessage).any
                (fun tid => mapHas groups tid) then acc1
            else (acc1.1 ++ [IGroup.normal g.taskMessage g.startIndex],
              acc1.2)).1)
      have hne : (extractTaskToolUseIds g.taskMessage).isEmpty = false := by
        cases hc : (extractTaskToolUseIds g.taskMessage).isEmpty with
        | false => rfl
        | true =>
            rw [List.isEmpty_iff.mp hc] at hextr
            cases hextr
      rw [if_neg (by rw [hne]; exact Bool.false_ne_true)]
      have hany : (extractTaskToolUseIds g.taskMessage).any
          (fun tid => mapHas groups tid) = true := by
        apply List.any_eq_true.mpr
        refine ⟨t, hextr, mapHas_of_get hg⟩
      rw [if_pos hany]
      exact innerFold_emits groups hkey t g hg _ _ hextr hinv1
    · exact interStep_inv st groups hkey _ _ hinv1
  rcases interFold_mono st groups l2 (interStep st groups
    (l1.foldl (interStep st groups) ([], []))
    (g.startIndex, g.taskMessage)) with ⟨e, he⟩
  rw [he, subagentsOfI_append]
  exact List.mem_append.mpr (Or.inl hstep.1)

theorem subagentsOfM_lookup (msgs : List ClaudeStreamMessage) :
    ∀ g ∈ subagentsOfM (groupMessages msgs),
      mapGet (buildSubagentGroups msgs (resolvePass msgs)) g.id = some g := by
  have hwf := buildSubagentGroups_wf msgs (resolvePass msgs)
    (resolvePass_taskMap_wf msgs)
  have hkey : ∀ kv ∈ buildSubagentGroups msgs (resolvePass msgs),
      kv.2.id = kv.1 := fun kv hkv => (hwf kv hkv).1
  have hinv := buildIntermediate_inv msgs (resolvePass msgs)
    (buildSubagentGroups msgs (resolvePass msgs)) hkey
  intro g hg
  rw [subagentsOfM_groupMessages] at hg
  exact hinv.2 g hg

theorem groupMessages_complete (msgs : List ClaudeStreamMessage)
    (H3 : ∀ i mi, msgs.get? i = some mi → extractTaskToolUseIds mi ≠ [] →
      getParentToolUseId mi = none) :
    ∀ t g, mapGet (buildSubagentGroups msgs (resolvePass msgs)) t = some g →
      g ∈ subagentsOfM (groupMessages msgs) := by
  intro t g hg
  rw [subagentsOfM_groupMessages]
  have hwf := buildSubagentGroups_wf msgs (resolvePass msgs)
    (resolvePass_taskMap_wf msgs)
  have hkey : ∀ kv ∈ buildSubagentGroups msgs (resolvePass msgs),
      kv.2.id = kv.1 := fun kv hkv => (hwf kv hkv).1
  refine buildIntermediate_complete msgs (resolvePass msgs) _ hkey hwf ?_ ?_
    t g hg
  · intro kv hkv
    rcases hwf kv hkv with ⟨_, _, _, _, _, hget, hextr⟩
    have hpar := H3 kv.2.startIndex kv.2.taskMessage hget
      (by intro hc; rw [hc] at hextr; cases hextr)
    unfold isProcessed
    rw [hpar]
  · intro kv hkv
    rcases hwf kv hkv with ⟨_, _, _, _, _, hget, hextr⟩
    have hne : (extractTaskToolUseIds kv.2.taskMessage).isEmpty = false := by
      cases hc : (extractTaskToolUseIds kv.2.taskMessage).isEmpty with
      | false => rfl
      | true =>
          rw [List.isEmpty_iff.mp hc] at hextr
          cases hextr
    show mapGet (resolvePass msgs).indexToTaskIds kv.2.startIndex =
      some (extractTaskToolUseIds kv.2.taskMessage)
    unfold resolvePass
    apply resolveFold_indexMap_present
    · exact mem_enumFrom.mpr ⟨Nat.zero_le _, by simpa using hget⟩
    · exact enumFrom_fst_nodup 0 msgs
    · exact hne

theorem resolveFold_indexMap_empty (ps : List (Nat × ClaudeStreamMessage)) :
    ∀ (st : ResolverState) (j : Nat) (m : ClaudeStreamMessage),
      (j, m) ∈ ps → (ps.map Prod.fst).Nodup →
      (extractTaskToolUseIds m).isEmpty = true →
      mapGet ((ps.foldl resolveStep st).indexToTaskIds) j =
        mapGet st.indexToTaskIds j := by
  induction ps with
  | nil => intro st j m h; cases h
  | cons q ps ih =>
      intro st j m hmem hnd hemp
      rw [List.foldl_cons]
      rcases List.mem_cons.mp hmem with h | h
      · cases h.symm
        have habs : ∀ q2 ∈ ps, q2.1 ≠ j := by
          intro q2 hq2 hc
          rw [List.map_cons] at hnd
          have h1 := (List.nodup_cons.mp hnd).1
          have h2 : q2.1 ∈ ps.map Prod.fst :=
            List.mem_map_of_mem Prod.fst hq2
          rw [hc] at h2
          exact h1 h2
        rw [resolveFold_indexMap_absent ps _ j habs, resolveStep_indexMap,
          if_pos hemp]
      · rw [List.map_cons] at hnd
        have hjq : q.1 ≠ j := by
          intro hc
          have h1 := (List.nodup_cons.mp hnd).1
          have h2 : j ∈ ps.map Prod.fst := List.mem_map_of_mem Prod.fst h
          rw [hc] at h1
          exact h1 h2
        rw [ih _ j m h (List.nodup_cons.mp hnd).2 hemp, resolveStep_indexMap]
        by_cases hq : (extractTaskToolUseIds q.2).isEmpty = true
        · rw [if_pos hq]
        · rw [if_neg hq, mapGet_mapSet_ne _ _ _ _ (Ne.symm hjq)]

theorem count_map_fst_filter_enum (msgs : List ClaudeStreamMessage)
    (f : Nat × ClaudeStreamMessage → Bool) (i : Nat)
    (m : ClaudeStreamMessage) (hget : msgs.get? i = some m) :
    ((((enumFrom 0 msgs).filter f).map Prod.fst).count i) =
      if f (i, m) then 1 else 0 := by
  have hnd : (((enumFrom 0 msgs).filter f).map Prod.fst).Nodup :=
    List.Nodup.sublist ((List.filter_sublist _).map Prod.fst)
      (enumFrom_fst_nodup 0 msgs)
  by_cases hf : f (i, m) = true
  · rw [if_pos hf]
    refine List.count_eq_one_of_mem hnd ?_
    exact List.mem_map.mpr ⟨(i, m), List.mem_filter.mpr
      ⟨mem_enumFrom.mpr ⟨Nat.zero_le i, by simpa using hget⟩, hf⟩, rfl⟩
  · rw [if_neg hf]
    apply List.count_eq_zero.mpr
    intro hmem
    rcases List.mem_map.mp hmem with ⟨q, hq, hq1⟩
    rcases List.mem_filter.mp hq with ⟨hqe, hqf⟩
    rcases q with ⟨i2, m2⟩
    simp only at hq1
    subst hq1
    have hm2 := (mem_enumFrom.mp hqe).2
    simp only [Nat.sub_zero] at hm2
    rw [hget] at hm2
    rw [← Option.some.inj hm2] at hqf
    exact hf hqf

theorem emitsNormal_processed (st : ResolverState)
    (groups : List (String × SubagentGroup)) (i : Nat)
    (m : ClaudeStreamMessage) (h : isProcessed groups m = true) :
    emitsNormal st groups i m = false := by
  unfold emitsNormal
  rw [if_pos h]

theorem emitsNormal_empty_extract (msgs : List ClaudeStreamMessage) (i : Nat)
    (m : ClaudeStreamMessage) (hget : msgs.get? i = some m)
    (hproc : isProcessed (buildSubagentGroups msgs (resolvePass msgs)) m
      = false)
    (hemp : extractTaskToolUseIds m = []) :
    emitsNormal (resolvePass msgs)
      (buildSubagentGroups msgs (resolvePass msgs)) i m = true := by
  unfold emitsNormal
  simp only [hproc, Bool.false_eq_true, if_false]
  have hidx : mapGet (resolvePass msgs).indexToTaskIds i = none := by
    show mapGet ((enumFrom 0 msgs).foldl resolveStep
      ⟨[], [], []⟩).indexToTaskIds i = none
    rw [resolveFold_indexMap_empty (enumFrom 0 msgs) _ i m
      (mem_enumFrom.mpr ⟨Nat.zero_le i, by simpa using hget⟩)
      (enumFrom_fst_nodup 0 msgs) (by rw [hemp]; rfl)]
    rfl
  rw [hidx]

theorem emitsNormal_false_of_matched (msgs : List ClaudeStreamMessage)
    (i : Nat) (m : ClaudeStreamMessage) (hget : msgs.get? i = some m)
    (hpar : getParentToolUseId m = none)
    (htids : extractTaskToolUseIds m ≠ []) (t : String)
    (ht : t ∈ extractTaskToolUseIds m)
    (hhas : mapHas (buildSubagentGroups msgs (resolvePass msgs)) t = true) :
    emitsNormal (resolvePass msgs)
      (buildSubagentGroups msgs (resolvePass msgs)) i m = false := by
  unfold emitsNormal
  have hproc : isProcessed (buildSubagentGroups msgs (resolvePass msgs)) m
      = false := by
    unfold isProcessed
    rw [hpar]
  have hEmpty : (extractTaskToolUseIds m).isEmpty = false := by
    cases hc : (extractTaskToolUseIds m).isEmpty with
    | false => rfl
    | true => exact absurd (List.isEmpty_iff.mp hc) htids
  have hidx : mapGet (resolvePass msgs).indexToTaskIds i =
      some (extractTaskToolUseIds m) := by
    show mapGet ((enumFrom 0 msgs).foldl resolveStep
      ⟨[], [], []⟩).indexToTaskIds i = some (extractTaskToolUseIds m)
    apply resolveFold_indexMap_present
    · exact mem_enumFrom.mpr ⟨Nat.zero_le i, by simpa using hget⟩
    · exact enumFrom_fst_nodup 0 msgs
    · exact hEmpty
  simp only [hproc, Bool.false_eq_true, if_false]
  rw [hidx]
  show (if (extractTaskToolUseIds m).isEmpty then true
        else !((extractTaskToolUseIds m).any fun tid =>
          mapHas (buildSubagentGroups msgs (resolvePass msgs)) tid)) = false
  rw [if_neg (by rw [hEmpty]; exact Bool.false_ne_true)]
  have hany : (extractTaskToolUseIds m).any (fun tid =>
      mapHas (buildSubagentGroups msgs (resolvePass msgs)) tid) = true :=
    List.any_eq_true.mpr ⟨t, ht, hhas⟩
  rw [hany]
  rfl

/-- C1 (amended): under the well-formedness assumptions that distinct
messages never extract a common task tool-use id (H1), that a message whose
parent id is extracted by some message occurs strictly after that extractor
(H2), and that task-invoking messages carry no parent id (H3), every input
index appears in the output of groupMessages exactly once: as exactly one
normal/aggregated payload, or as a member of exactly one subagent group,
or as the owning task message of at least one subagent entry.  Without H2
the claim is false: a message whose parent matches a materialized group but
which precedes the task message is dropped (see the counterexample). -/
theorem exactly_once_partition_amended (msgs : List ClaudeStreamMessage)
    (H1 : ∀ i mi j mj, msgs.get? i = some mi → msgs.get? j = some mj →
      i ≠ j → ∀ t ∈ extractTaskToolUseIds mi, t ∉ extractTaskToolUseIds mj)
    (H2 : ∀ i mi j mj, msgs.get? i = some mi → msgs.get? j = some mj →
      ∀ p, getParentToolUseId mi = some p → p ∈ extractTaskToolUseIds mj →
        j < i)
    (H3 : ∀ i mi, msgs.get? i = some mi → extractTaskToolUseIds mi ≠ [] →
      getParentToolUseId mi = none) :
    ∀ i m, msgs.get? i = some m →
      ((flattenNA (groupMessages msgs)).count i = 1 ∧
        (flattenMembers (groupMessages msgs)).count i = 0 ∧
        (flattenOwners (groupMessages msgs)).count i = 0) ∨
      ((flattenNA (groupMessages msgs)).count i = 0 ∧
        (flattenMembers (groupMessages msgs)).count i = 1 ∧
        (flattenOwners (groupMessages msgs)).count i = 0) ∨
      ((flattenNA (groupMessages msgs)).count i = 0 ∧
        (flattenMembers (groupMessages msgs)).count i = 0 ∧
        (flattenOwners (groupMessages msgs)).count i ≠ 0) := by
  intro i m hget
  have hNAeq : (flattenNA (groupMessages msgs)).count i =
      if emitsNormal (resolvePass msgs)
        (buildSubagentGroups msgs (resolvePass msgs)) i m then 1 else 0 := by
    rw [flattenNA_eq_naPairs, naPairs_groupMessages]
    exact count_map_fst_filter_enum msgs _ i m hget
  have hMemChar : ∀ x : Nat, x ∈ flattenMembers (groupMessages msgs) ↔
      ∃ g ∈ subagentsOfM (groupMessages msgs),
        x ∈ g.subagentMessages.map Prod.fst := by
    intro x
    rw [flattenMembers_eq]
    exact List.mem_flatMap
  have hOwnChar : ∀ x : Nat, x ∈ flattenOwners (groupMessages msgs) ↔
      ∃ g ∈ subagentsOfM (groupMessages msgs), g.startIndex = x := by
    intro x
    rw [flattenOwners_eq]
    exact List.mem_map
  cases hpar : getParentToolUseId m with
  | some p =>
      have hextr_empty : extractTaskToolUseIds m = [] := by
        by_contra hc
        rw [H3 i m hget hc] at hpar
        cases hpar
      have hOwn0 : (flattenOwners (groupMessages msgs)).count i = 0 := by
        apply List.count_eq_zero.mpr
        intro hmem
        rcases (hOwnChar i).mp hmem with ⟨g, hg, hsi⟩
        rcases subagentsOfM_shape msgs g hg with ⟨_, _, _, _, _, hgetg, hextg⟩
        rw [hsi, hget] at hgetg
        rw [← Option.some.inj hgetg, hextr_empty] at hextg
        cases hextg
      cases hhas : mapHas (buildSubagentGroups msgs (resolvePass msgs)) p with
      | true =>
          right; left
          have hproc : isProcessed
              (buildSubagentGroups msgs (resolvePass msgs)) m = true := by
            unfold isProcessed
            rw [hpar]
            exact hhas
          refine ⟨?_, ?_, hOwn0⟩
          · rw [hNAeq, emitsNormal_processed _ _ i m hproc]
            rfl
          · apply List.count_eq_one_of_mem (flattenMembers_nodup msgs)
            apply (hMemChar i).mpr
            have hsome : ∃ gp, mapGet (buildSubagentGroups msgs
                (resolvePass msgs)) p = some gp := by
              rw [mapHas_eq_isSome] at hhas
              exact Option.isSome_iff_exists.mp hhas
            rcases hsome with ⟨gp, hgp⟩
            refine ⟨gp, groupMessages_complete msgs H3 p gp hgp, ?_⟩
            rcases buildSubagentGroups_wf msgs (resolvePass msgs)
              (resolvePass_taskMap_wf msgs) (p, gp) (mapGet_mem hgp) with
              ⟨_, _, hcoll, _, _, hgetg, hextg⟩
            have hlt : gp.startIndex < i :=
              H2 i m gp.startIndex gp.taskMessage hget hgetg p hpar hextg
            apply List.mem_map.mpr
            refine ⟨(i, m), ?_, rfl⟩
            rw [hcoll]
            exact collectSubagent_mem.mpr ⟨hlt, hpar, hget⟩
      | false =>
          left
          have hproc : isProcessed
              (buildSubagentGroups msgs (resolvePass msgs)) m = false := by
            unfold isProcessed
            rw [hpar]
            exact hhas
          refine ⟨?_, ?_, hOwn0⟩
          · rw [hNAeq,
              emitsNormal_empty_extract msgs i m hget hproc hextr_empty]
            rfl
          · apply List.count_eq_zero.mpr
            intro hmem
            rcases (hMemChar i).mp hmem with ⟨g, hg, hgm⟩
            rcases subagentsOfM_shape msgs g hg with
              ⟨_, _, hcoll, _, _, _, _⟩
            rcases List.mem_map.mp hgm with ⟨q, hq, hq1⟩
            rw [hcoll] at hq
            rcases collectSubagent_mem.mp hq with ⟨_, hparq, hgetq⟩
            rw [hq1, hget] at hgetq
            rw [← Option.some.inj hgetq, hpar] at hparq
            have hgid : g.id = p := (Option.some.inj hparq).symm
            have hg2 := subagentsOfM_lookup msgs g hg
            rw [hgid] at hg2
            have hcontra := mapHas_of_get hg2
            rw [hhas] at hcontra
            cases hcontra
  | none =>
      have hproc : isProcessed
          (buildSubagentGroups msgs (resolvePass msgs)) m = false := by
        unfold isProcessed
        rw [hpar]
      have hMem0 : (flattenMembers (groupMessages msgs)).count i = 0 := by
        apply List.count_eq_zero.mpr
        intro hmem
        rcases (hMemChar i).mp hmem with ⟨g, hg, hgm⟩
        rcases subagentsOfM_shape msgs g hg with ⟨_, _, hcoll, _, _, _, _⟩
        rcases List.mem_map.mp hgm with ⟨q, hq, hq1⟩
        rw [hcoll] at hq
        rcases collectSubagent_mem.mp hq with ⟨_, hparq, hgetq⟩
        rw [hq1, hget] at hgetq
        rw [← Option.some.inj hgetq, hpar] at hparq
        cases hparq
      by_cases hextr : extractTaskToolUseIds m = []
      · left
        refine ⟨?_, hMem0, ?_⟩
        · rw [hNAeq, emitsNormal_empty_extract msgs i m hget hproc hextr]
          rfl
        · apply List.count_eq_zero.mpr
          intro hmem
          rcases (hOwnChar i).mp hmem with ⟨g, hg, hsi⟩
          rcases subagentsOfM_shape msgs g hg with
            ⟨_, _, _, _, _, hgetg, hextg⟩
          rw [hsi, hget] at hgetg
          rw [← Option.some.inj hgetg, hextr] at hextg
          cases hextg
      · by_cases hmat : ∃ t ∈ extractTaskToolUseIds m,
            mapHas (buildSubagentGroups msgs (resolvePass msgs)) t = true
        · right; right
          rcases hmat with ⟨t, ht, hhas⟩
          refine ⟨?_, hMem0, ?_⟩
          · rw [hNAeq,
              emitsNormal_false_of_matched msgs i m hget hpar hextr t ht
                hhas]
            rfl
          · intro hcnt
            have hsome : ∃ gp, mapGet (buildSubagentGroups msgs
                (resolvePass msgs)) t = some gp := by
              rw [mapHas_eq_isSome] at hhas
              exact Option.isSome_iff_exists.mp hhas
            rcases hsome with ⟨gp, hgp⟩
            rcases buildSubagentGroups_wf msgs (resolvePass msgs)
              (resolvePass_taskMap_wf msgs) (t, gp) (mapGet_mem hgp) with
              ⟨_, _, _, _, _, hgetg, hextg⟩
            have hstart : gp.startIndex = i := by
              by_contra hne3
              exact H1 gp.startIndex gp.taskMessage i m hgetg hget hne3
                t hextg ht
            have hmem : i ∈ flattenOwners (groupMessages msgs) :=
              (hOwnChar i).mpr ⟨gp, groupMessages_complete msgs H3 t gp hgp,
                hstart⟩
            exact absurd hmem (List.count_eq_zero.mp hcnt)
        · left
          have hhasall : ∀ t ∈ extractTaskToolUseIds m,
              mapHas (buildSubagentGroups msgs (resolvePass msgs)) t
                = false := by
            intro t ht
            cases hc : mapHas (buildSubagentGroups msgs (resolvePass msgs)) t
              with
            | false => rfl
            | true => exact absurd ⟨t, ht, hc⟩ hmat
          refine ⟨?_, hMem0, ?_⟩
          · rw [hNAeq,
              emitsNormal_of_unmatched msgs i m hget hpar hextr hhasall]
            rfl
          · apply List.count_eq_zero.mpr
            intro hmem
            rcases (hOwnChar i).mp hmem with ⟨g, hg, hsi⟩
            rcases subagentsOfM_shape msgs g hg with
              ⟨_, _, _, _, _, hgetg, hextg⟩
            rw [hsi, hget] at hgetg
            rw [← Option.some.inj hgetg] at hextg
            have hcontra := mapHas_of_get (subagentsOfM_lookup msgs g hg)
            rw [hhasall g.id hextg] at hcontra
            cases hcontra

/-- **C1** counterexample: in `exEarlyParent`, the message at index 0 has
`parent_tool_use_id = "T"` and the task invocation for `"T"` sits later,
at index 1. The second pass marks every parent-matching index as
processed but only collects the ones after the task index, so index 0 is
dropped from the output entirely: it appears in no normal/aggregated
payload, no subagent member list, and owns no subagent entry. -/
theorem exactly_once_partition_cex :
    exEarlyParent.get? 0 = some (mChild "T" "a") ∧
    (flattenNA (groupMessages exEarlyParent)).count 0 = 0 ∧
    (flattenMembers (groupMessages exEarlyParent)).count 0 = 0 ∧
    (flattenOwners (groupMessages exEarlyParent)).count 0 = 0 := by
  refine ⟨rfl, ?_, ?_, ?_⟩ <;> decide

/-- Witness for C1 (amended) at `exInterleaved` and index 2 (a subagent
member), with the three well-formedness hypotheses discharged by
evaluation. -/
theorem exactly_once_partition_witness :
    ((flattenNA (groupMessages exInterleaved)).count 2 = 1 ∧
      (flattenMembers (groupMessages exInterleaved)).count 2 = 0 ∧
      (flattenOwners (groupMessages exInterleaved)).count 2 = 0) ∨
    ((flattenNA (groupMessages exInterleaved)).count 2 = 0 ∧
      (flattenMembers (groupMessages exInterleaved)).count 2 = 1 ∧
      (flattenOwners (groupMessages exInterleaved)).count 2 = 0) ∨
    ((flattenNA (groupMessages exInterleaved)).count 2 = 0 ∧
      (flattenMembers (groupMessages exInterleaved)).count 2 = 0 ∧
      (flattenOwners (groupMessages exInterleaved)).count 2 ≠ 0) := by
  have hb1 : ∀ p ∈ enumFrom 0 exInterleaved,
      ∀ q ∈ enumFrom 0 exInterleaved, p.1 ≠ q.1 →
      ∀ t ∈ extractTaskToolUseIds p.2,
        t ∉ extractTaskToolUseIds q.2 := by decide
  have hb2 : ∀ p ∈ enumFrom 0 exInterleaved,
      ∀ q ∈ enumFrom 0 exInterleaved,
      ∀ t ∈ extractTaskToolUseIds q.2,
        getParentToolUseId p.2 = some t → q.1 < p.1 := by decide
  have hb3 : ∀ p ∈ enumFrom 0 exInterleaved,
      extractTaskToolUseIds p.2 ≠ [] →
        getParentToolUseId p.2 = none := by decide
  exact exactly_once_partition_amended exInterleaved
    (fun i mi j mj hgi hgj hne t htm =>
      hb1 (i, mi) (mem_enumFrom.mpr ⟨Nat.zero_le i, by simpa using hgi⟩)
        (j, mj) (mem_enumFrom.mpr ⟨Nat.zero_le j, by simpa using hgj⟩)
        hne t htm)
    (fun i mi j mj hgi hgj p hpar hpext =>
      hb2 (i, mi) (mem_enumFrom.mpr ⟨Nat.zero_le i, by simpa using hgi⟩)
        (j, mj) (mem_enumFrom.mpr ⟨Nat.zero_le j, by simpa using hgj⟩)
        p hpext hpar)
    (fun i mi hgi =>
      hb3 (i, mi) (mem_enumFrom.mpr ⟨Nat.zero_le i, by simpa using hgi⟩))
    2 (mChild "A" "a1") (by decide)

/-- Witness for C9 at `exInterleaved`, instantiating the per-group
invariants at the concrete group materialized for task `"A"`. -/
theorem subagent_group_invariants_witness :
    ((subagentsOfM (groupMessages exInterleaved)).map
      SubagentGroup.id).Nodup ∧
    (((⟨"A", mTask "A", "A", [(2, mChild "A" "a1"), (5, mChild "A" "a2")],
        0, 5, none⟩ : SubagentGroup).subagentMessages.map
      Prod.fst).Pairwise (· < ·) ∧
    (⟨"A", mTask "A", "A", [(2, mChild "A" "a1"), (5, mChild "A" "a2")],
        0, 5, none⟩ : SubagentGroup).subagentMessages ≠ [] ∧
    exInterleaved.get? 0 = some (mTask "A")) := by
  have h := subagent_group_invariants exInterleaved
  have h2 := h.2.1
    ⟨"A", mTask "A", "A", [(2, mChild "A" "a1"), (5, mChild "A" "a2")],
      0, 5, none⟩ (by decide)
  exact ⟨h.1, h2.1, h2.2.2.1, h2.2.2.2.1⟩

/-- Witness for C5 (amended) at `exInterleaved`: the normal/aggregated
index sequence is strictly ascending, and the group for task `"B"` has
its task index strictly before its ascending member indices. -/
theorem order_preservation_witness :
    (flattenNA (groupMessages exInterleaved)).Pairwise (· < ·) ∧
    (((⟨"B", mTask "B", "B", [(3, mChild "B" "b1"), (4, mChild "B" "b2")],
        1, 4, none⟩ : SubagentGroup).startIndex ::
      (⟨"B", mTask "B", "B", [(3, mChild "B" "b1"), (4, mChild "B" "b2")],
        1, 4, none⟩ : SubagentGroup).subagentMessages.map
        Prod.fst).Pairwise (· < ·)) :=
  ⟨(order_preservation_amended exInterleaved).1,
    (order_preservation_amended exInterleaved).2
      ⟨"B", mTask "B", "B", [(3, mChild "B" "b1"), (4, mChild "B" "b2")],
        1, 4, none⟩ (by decide)⟩
